import Mathlib

/-!
Verification of the `config` library (github.com/farrukhny/config): a
declarative configuration loader that populates a tagged record from
defaults, environment variables and command-line flags.

The development shallowly embeds the Go source: strings are lists of
characters, `reflect.Value` destinations are an inductive `Value` indexed by
a type model `Ty`, fallible Go functions return `Except String`.  Each
definition is translated from the corresponding Go function (file and
function named in its doc comment).
-/

set_option maxHeartbeats 1000000
set_option maxRecDepth 4000

namespace Config

/-- Go strings are modelled as lists of characters.  All strings handled by
the library are valid UTF-8, where Go's rune iteration coincides with the
character list. -/
abbrev Str := List Char

/-- `lower(c)` from strconv: ASCII lower-casing by setting bit 0x20. -/
def lowerC (c : Char) : Char := Char.ofNat (c.toNat % 128 ||| 0x20)

/-- ASCII decimal digit test, `'0' <= c && c <= '9'` in the Go source. -/
def isDigitC (c : Char) : Bool := 48 ≤ c.toNat && c.toNat ≤ 57

/-- Decimal digit character for a value `d < 10`. -/
def digitChar (d : Nat) : Char := Char.ofNat (48 + d)

/-- Numeric value of a decimal digit character. -/
def digitVal (c : Char) : Nat := c.toNat - 48

/-- Value of a decimal digit string (most significant first). -/
def decVal (s : Str) : Nat := s.foldl (fun a c => a * 10 + digitVal c) 0

/-- Decimal digit emission used by `strconv.FormatInt`/`FormatUint` (base 10)
and by `fmtInt` in `time.Duration.String`: digits of `n`, most significant
first, `"0"` for zero. -/
def natDecAux (n : Nat) (acc : Str) : Str :=
  if n < 10 then digitChar (n % 10) :: acc
  else natDecAux (n / 10) (digitChar (n % 10) :: acc)
termination_by n
decreasing_by exact Nat.div_lt_self (by omega) (by omega)

/-- Decimal representation of a natural number. -/
def natDec (n : Nat) : Str := natDecAux n []

/-- `strconv.FormatUint(n, 10)`. -/
def formatUint (n : Nat) : Str := natDec n

/-- `strconv.FormatInt(v, 10)`. -/
def formatInt (v : Int) : Str :=
  if v < 0 then '-' :: natDec v.natAbs else natDec v.natAbs

/-- `strconv.ParseBool`: the exact set of accepted literals. -/
def parseBool (s : Str) : Except String Bool :=
  if s = "1".toList ∨ s = "t".toList ∨ s = "T".toList ∨ s = "true".toList ∨
     s = "TRUE".toList ∨ s = "True".toList then .ok true
  else if s = "0".toList ∨ s = "f".toList ∨ s = "F".toList ∨ s = "false".toList ∨
     s = "FALSE".toList ∨ s = "False".toList then .ok false
  else .error "invalid syntax"

/-- `strconv.underscoreOK`: whether underscores in a base-0 literal sit only
between digits or between a base prefix and a digit. -/
def underscoreOK (s : Str) : Bool :=
  let rec loop (hex : Bool) (saw : Char) : Str → Bool
    | [] => saw ≠ '_'
    | c :: rest =>
      if isDigitC c || (hex && 97 ≤ (lowerC c).toNat && (lowerC c).toNat ≤ 102) then
        loop hex '0' rest
      else if c = '_' then
        if saw ≠ '0' then false else loop hex '_' rest
      else if saw = '_' then false
      else loop hex '!' rest
  match s with
  | [] => true
  | c0 :: rest0 =>
    let (s1 : Str) := if c0 = '-' ∨ c0 = '+' then rest0 else c0 :: rest0
    match s1 with
    | '0' :: c1 :: rest1 =>
      if lowerC c1 = 'b' ∨ lowerC c1 = 'o' ∨ lowerC c1 = 'x' then
        loop (lowerC c1 = 'x') '0' rest1
      else loop false '^' s1
    | _ => loop false '^' s1

/-- Digit-accumulation loop of `strconv.ParseUint`.  Returns the accumulated
value and whether an underscore was seen.  `base0` records whether the
caller passed base 0 (underscores tolerated, checked afterwards). -/
def parseUintLoop (base maxVal cutoff : Nat) (base0 : Bool) :
    Str → Nat → Bool → Except String (Nat × Bool)
  | [], n, us => .ok (n, us)
  | c :: rest, n, us =>
    if c = '_' ∧ base0 then parseUintLoop base maxVal cutoff base0 rest n true
    else
      let d? : Option Nat :=
        if isDigitC c then some (digitVal c)
        else if 97 ≤ (lowerC c).toNat ∧ (lowerC c).toNat ≤ 122 then
          some ((lowerC c).toNat - 97 + 10)
        else none
      match d? with
      | none => .error "invalid syntax"
      | some d =>
        if d ≥ base then .error "invalid syntax"
        else if n ≥ cutoff then .error "value out of range"
        else
          let n1 := n * base + d
          if n1 > maxVal then .error "value out of range"
          else parseUintLoop base maxVal cutoff base0 rest n1 us

/-- Base-0 prefix detection of `strconv.ParseUint`: 0b/0o/0x prefixes, a
bare leading 0 means octal, otherwise decimal. -/
def basePrefix (s : Str) : Nat × Str :=
  match s with
  | c0 :: rest =>
    if c0 = '0' then
      match rest with
      | c1 :: rest1 =>
        if rest1 ≠ [] ∧ lowerC c1 = 'b' then (2, rest1)
        else if rest1 ≠ [] ∧ lowerC c1 = 'o' then (8, rest1)
        else if rest1 ≠ [] ∧ lowerC c1 = 'x' then (16, rest1)
        else (8, c1 :: rest1)
      | [] => (8, [])
    else (10, s)
  | [] => (10, s)

/-- `strconv.ParseUint(s, base, bitSize)`; the library always passes base 0. -/
def parseUint (s : Str) (base bitSize : Nat) : Except String Nat :=
  if s = [] then .error "invalid syntax"
  else
    let base0 := base == 0
    let p := if 2 ≤ base ∧ base ≤ 36 then (base, s) else basePrefix s
    let bits := if bitSize = 0 then 64 else bitSize
    let maxVal := 2 ^ bits - 1
    match parseUintLoop p.1 maxVal (maxVal / p.1 + 1) base0 p.2 0 false with
    | .error e => .error e
    | .ok (n, us) =>
      if us ∧ ¬ underscoreOK s then .error "invalid syntax"
      else .ok n

/-- `strconv.ParseInt(s, base, bitSize)`. -/
def parseInt (s : Str) (base bitSize : Nat) : Except String Int :=
  match s with
  | [] => .error "invalid syntax"
  | c0 :: rest =>
    let (neg, s1) : Bool × Str :=
      if c0 = '+' then (false, rest)
      else if c0 = '-' then (true, rest)
      else (false, c0 :: rest)
    match parseUint s1 base bitSize with
    | .error e => .error e
    | .ok un =>
      let bits := if bitSize = 0 then 64 else bitSize
      let cutoff : Nat := 2 ^ (bits - 1)
      if ¬ neg ∧ un ≥ cutoff then .error "value out of range"
      else if neg ∧ un > cutoff then .error "value out of range"
      else .ok (if neg then -(un : Int) else (un : Int))

/-! ### Decimal digit lemmas -/

theorem natDecAux_eq (n : Nat) (acc : Str) : natDecAux n acc = natDec n ++ acc := by
  induction n using Nat.strong_induction_on generalizing acc with
  | _ n ih =>
    by_cases h : n < 10
    · have hbase : natDecAux n [] = [digitChar (n % 10)] := by
        rw [natDecAux]; simp [h]
      rw [natDecAux, natDec, hbase]
      simp [h]
    · rw [natDecAux]
      simp only [h, if_false]
      rw [ih (n / 10) (Nat.div_lt_self (by omega) (by omega))]
      conv_rhs => rw [natDec, natDecAux]
      simp only [h, if_false]
      rw [ih (n / 10) (Nat.div_lt_self (by omega) (by omega))]
      simp

theorem natDec_small {n : Nat} (h : n < 10) : natDec n = [digitChar n] := by
  rw [natDec, natDecAux]
  simp [h, Nat.mod_eq_of_lt h]

theorem natDec_step {n : Nat} (h : ¬ n < 10) :
    natDec n = natDec (n / 10) ++ [digitChar (n % 10)] := by
  conv_lhs => rw [natDec, natDecAux]
  simp only [h, if_false]
  rw [natDecAux_eq]

theorem natDec_ne_nil (n : Nat) : natDec n ≠ [] := by
  by_cases h : n < 10
  · rw [natDec_small h]; simp
  · rw [natDec_step h]; simp

theorem digitChar_isDigit {d : Nat} (h : d < 10) : isDigitC (digitChar d) = true := by
  interval_cases d <;> decide

theorem digitVal_digitChar {d : Nat} (h : d < 10) : digitVal (digitChar d) = d := by
  interval_cases d <;> decide

theorem natDec_all_digits (n : Nat) : ∀ c ∈ natDec n, isDigitC c = true := by
  induction n using Nat.strong_induction_on with
  | _ n ih =>
    by_cases h : n < 10
    · rw [natDec_small h]
      intro c hc
      simp at hc
      subst hc
      exact digitChar_isDigit h
    · rw [natDec_step h]
      intro c hc
      rcases List.mem_append.mp hc with h1 | h1
      · exact ih (n / 10) (Nat.div_lt_self (by omega) (by omega)) c h1
      · simp at h1
        subst h1
        exact digitChar_isDigit (Nat.mod_lt _ (by omega))

theorem decVal_append (s t : Str) :
    decVal (s ++ t) = decVal s * 10 ^ t.length + decVal t := by
  induction t using List.reverseRecOn with
  | nil => simp [decVal]
  | append_singleton t c ih =>
    rw [show s ++ (t ++ [c]) = (s ++ t) ++ [c] by simp]
    simp only [decVal, List.foldl_append, List.foldl_cons, List.foldl_nil] at *
    rw [ih, List.length_append, List.length_singleton, pow_succ]
    ring

theorem decVal_natDec (n : Nat) : decVal (natDec n) = n := by
  induction n using Nat.strong_induction_on with
  | _ n ih =>
    by_cases h : n < 10
    · rw [natDec_small h]
      simp [decVal, digitVal_digitChar h]
    · rw [natDec_step h, decVal_append, ih (n / 10) (Nat.div_lt_self (by omega) (by omega))]
      have hm : digitVal (digitChar (n % 10)) = n % 10 :=
        digitVal_digitChar (Nat.mod_lt n (by omega))
      simp [decVal, hm]
      omega

theorem natDec_head_ne_zero {n : Nat} (h : 1 ≤ n) :
    ∀ c, (natDec n).head? = some c → c ≠ '0' := by
  induction n using Nat.strong_induction_on with
  | _ n ih =>
    by_cases h10 : n < 10
    · rw [natDec_small h10]
      intro c hc
      simp at hc
      subst hc
      revert h
      interval_cases n <;> decide
    · rw [natDec_step h10]
      intro c hc
      rcases hd : natDec (n / 10) with _ | ⟨x, xs⟩
      · exact absurd hd (natDec_ne_nil (n / 10))
      · rw [hd] at hc
        simp at hc
        refine ih (n / 10) (Nat.div_lt_self (by omega) (by omega)) (by omega) c ?_
        rw [hd, hc]
        rfl

theorem digitVal_lt_of_isDigit {c : Char} (h : isDigitC c = true) : digitVal c < 10 := by
  simp [isDigitC] at h
  simp [digitVal]
  omega

theorem isDigit_ne_underscore {c : Char} (h : isDigitC c = true) : c ≠ '_' := by
  intro hc
  subst hc
  simp [isDigitC] at h

theorem decVal_lt (ds : Str) (hd : ∀ c ∈ ds, isDigitC c = true) :
    decVal ds < 10 ^ ds.length := by
  induction ds using List.reverseRecOn with
  | nil => simp [decVal]
  | append_singleton t c ih =>
    rw [decVal_append]
    have hc : digitVal c < 10 := digitVal_lt_of_isDigit (hd c (by simp))
    have ht : decVal t < 10 ^ t.length := ih (fun x hx => hd x (by simp [hx]))
    have h1 : decVal [c] = digitVal c := by simp [decVal]
    simp only [List.length_append, List.length_singleton, pow_one, h1]
    have h2 : (10:Nat) ^ (t.length + 1) = 10 ^ t.length * 10 := pow_succ 10 t.length
    rw [h2]
    nlinarith

theorem parseUintLoop_digits (maxVal : Nat) (base0 us : Bool) :
    ∀ (ds : Str) (a : Nat), (∀ c ∈ ds, isDigitC c = true) →
    a * 10 ^ ds.length + decVal ds ≤ maxVal →
    parseUintLoop 10 maxVal (maxVal / 10 + 1) base0 ds a us =
      .ok (a * 10 ^ ds.length + decVal ds, us) := by
  intro ds
  induction ds with
  | nil => intro a _ _; simp [parseUintLoop, decVal]
  | cons c rest ih =>
    intro a hdig hle
    have hc : isDigitC c = true := hdig c (by simp)
    have hd10 : digitVal c < 10 := digitVal_lt_of_isDigit hc
    have hval : decVal (c :: rest) = digitVal c * 10 ^ rest.length + decVal rest := by
      have : (c :: rest) = [c] ++ rest := rfl
      rw [this, decVal_append]
      simp [decVal]
    have hrest : decVal rest < 10 ^ rest.length :=
      decVal_lt rest (fun x hx => hdig x (by simp [hx]))
    have hstep : (a * 10 + digitVal c) * 10 ^ rest.length + decVal rest ≤ maxVal := by
      rw [List.length_cons, pow_succ] at hle
      rw [hval] at hle
      nlinarith
    have hcut : ¬ a ≥ maxVal / 10 + 1 := by
      have h1 : a * 10 ≤ maxVal := by
        have hp : 1 ≤ 10 ^ rest.length := Nat.one_le_pow _ _ (by omega)
        rw [List.length_cons, pow_succ] at hle
        nlinarith
      have := Nat.le_div_iff_mul_le (show 0 < 10 by omega) |>.mpr h1
      omega
    have hn1 : ¬ a * 10 + digitVal c > maxVal := by
      have hp : 1 ≤ 10 ^ rest.length := Nat.one_le_pow _ _ (by omega)
      nlinarith
    rw [parseUintLoop]
    simp only [isDigit_ne_underscore hc, false_and, if_false, hc, if_true]
    simp only [show ¬ digitVal c ≥ 10 by omega, if_false, hcut, if_false, hn1, if_false]
    rw [ih (a * 10 + digitVal c) (fun x hx => hdig x (by simp [hx])) hstep]
    congr 2
    rw [List.length_cons, pow_succ, hval]
    ring

theorem natDec_head_not_zero_cons {n : Nat} (h : 1 ≤ n) :
    ∃ c cs, natDec n = c :: cs ∧ c ≠ '0' ∧ isDigitC c = true := by
  rcases hd : natDec n with _ | ⟨c, cs⟩
  · exact absurd hd (natDec_ne_nil n)
  · refine ⟨c, cs, rfl, natDec_head_ne_zero h c (by rw [hd]; rfl), ?_⟩
    exact natDec_all_digits n c (by rw [hd]; simp)

theorem parseUint_natDec (n bits : Nat) (hbits : 1 ≤ bits) (hle : n ≤ 2 ^ bits - 1) :
    parseUint (natDec n) 0 bits = .ok n := by
  have hbne : ¬ (bits = 0) := by omega
  by_cases hn : n = 0
  · subst hn
    have h0 : natDec 0 = ['0'] := by rw [natDec_small (by omega)]; rfl
    rw [h0, parseUint]
    simp only [show ¬ (['0'] : Str) = [] by simp, if_false,
      show ¬ (2 ≤ 0 ∧ (0:Nat) ≤ 36) by omega, if_false,
      show basePrefix ['0'] = (8, ([] : Str)) from rfl, hbne, if_false]
    rw [show ∀ (mv ct : Nat), parseUintLoop 8 mv ct (0 == 0) [] 0 false = .ok (0, false)
          from fun _ _ => rfl]
    simp
  · have h1 : 1 ≤ n := by omega
    obtain ⟨c, cs, hnd, hc0, hcd⟩ := natDec_head_not_zero_cons h1
    rw [hnd, parseUint]
    have hbp : basePrefix (c :: cs) = (10, c :: cs) := by
      simp [basePrefix, hc0]
    simp only [show ¬ (c :: cs : Str) = [] by simp, if_false,
      show ¬ (2 ≤ 0 ∧ (0:Nat) ≤ 36) by omega, if_false, hbp, hbne, if_false]
    have hdig : ∀ x ∈ (c :: cs : Str), isDigitC x = true := by
      rw [← hnd]; exact natDec_all_digits n
    have hval : decVal (c :: cs) = n := by rw [← hnd]; exact decVal_natDec n
    have hle' : 0 * 10 ^ (c :: cs : Str).length + decVal (c :: cs) ≤ 2 ^ bits - 1 := by
      rw [hval]; omega
    rw [parseUintLoop_digits (2 ^ bits - 1) (0 == 0) false (c :: cs) 0 hdig hle']
    simp [hval]

theorem natDec_head_not_sign (n : Nat) :
    ∀ c cs, natDec n = c :: cs → c ≠ '+' ∧ c ≠ '-' := by
  intro c cs hd
  have hc := natDec_all_digits n c (by rw [hd]; simp)
  simp [isDigitC] at hc
  constructor <;> intro h <;> subst h <;> simp at hc

theorem natAbs_le_pow_sub_one {v : Int} {bits : Nat} (hbits : 1 ≤ bits)
    (h : (v.natAbs : Int) ≤ 2 ^ (bits - 1)) : v.natAbs ≤ 2 ^ bits - 1 := by
  have hp1 : (2 : Int) ^ (bits - 1) * 2 = 2 ^ bits := by
    rw [← pow_succ]
    congr 1
    omega
  have hp2 : (1 : Int) ≤ 2 ^ (bits - 1) := by
    have := pow_pos (show (0:Int) < 2 by omega) (bits - 1)
    omega
  have hi : (v.natAbs : Int) ≤ 2 ^ bits - 1 := by linarith
  have h2 : (1 : Nat) ≤ 2 ^ bits := Nat.one_le_two_pow
  have hb : ((2 ^ bits - 1 : Nat) : Int) = (2 : Int) ^ bits - 1 := by
    rw [Nat.cast_sub h2]
    push_cast
    ring
  rw [← hb] at hi
  exact_mod_cast hi

/-- Round trip of `FormatInt`/`ParseInt` at base 10/0: what the library's
`valueToString` emits for a signed integer field parses back to it. -/
theorem parseInt_formatInt (v : Int) (bits : Nat) (hbits : 1 ≤ bits)
    (hlo : -(2 ^ (bits - 1) : Int) ≤ v) (hhi : v < 2 ^ (bits - 1)) :
    parseInt (formatInt v) 0 bits = .ok v := by
  have hbne : ¬ (bits = 0) := by omega
  have hcastp : ((2 ^ (bits - 1) : Nat) : Int) = (2 : Int) ^ (bits - 1) := by
    push_cast
    ring
  by_cases hv : v < 0
  · -- negative: a leading minus sign, magnitude within the signed cutoff
    have hfmt : formatInt v = '-' :: natDec v.natAbs := by rw [formatInt, if_pos hv]
    rw [hfmt, parseInt]
    simp only [show (('-' : Char) = '+') = False by simp, if_false,
      show (('-' : Char) = '-') = True by simp, if_true]
    have habs : v.natAbs ≤ 2 ^ bits - 1 := natAbs_le_pow_sub_one hbits (by omega)
    rw [parseUint_natDec v.natAbs bits hbits habs]
    have hcut : ¬ (v.natAbs > 2 ^ (bits - 1)) := by
      have h1 : (v.natAbs : Int) ≤ (2 : Int) ^ (bits - 1) := by omega
      rw [← hcastp] at h1
      exact_mod_cast not_lt.mpr h1
    simp only [hbne, if_false]
    rw [if_neg (by simp)]
    rw [if_neg (by simp [hcut])]
    simp only [Except.ok.injEq, if_pos rfl]
    omega
  · -- nonnegative: plain digits, below the signed cutoff
    have hfmt : formatInt v = natDec v.natAbs := by rw [formatInt, if_neg hv]
    obtain ⟨c, cs, hnd⟩ : ∃ c cs, natDec v.natAbs = c :: cs := by
      rcases hd : natDec v.natAbs with _ | ⟨c, cs⟩
      · exact absurd hd (natDec_ne_nil _)
      · exact ⟨c, cs, rfl⟩
    obtain ⟨hnp, hnm⟩ := natDec_head_not_sign v.natAbs c cs hnd
    rw [hfmt, hnd, parseInt]
    simp only [hnp, if_false, hnm, if_false]
    rw [← hnd]
    have habs : v.natAbs ≤ 2 ^ bits - 1 := natAbs_le_pow_sub_one hbits (by omega)
    rw [parseUint_natDec v.natAbs bits hbits habs]
    have hcut : ¬ (v.natAbs ≥ 2 ^ (bits - 1)) := by
      have h1 : (v.natAbs : Int) < (2 : Int) ^ (bits - 1) := by omega
      rw [← hcastp] at h1
      exact_mod_cast not_le.mpr h1
    simp only [hbne, if_false]
    rw [if_neg (by simp [hcut])]
    rw [if_neg (by simp)]
    simp
    omega

/-! ### time.Duration: `Duration.String` and `time.ParseDuration`

The coercer special-cases `time.Duration` fields, parsing them with
`time.ParseDuration`; the renderer formats them with `Duration.String`.
Both are embedded below.  Durations are int64 nanosecond counts, modelled
as `Int` with the 64-bit range carried as a hypothesis. -/

/-- `fmtFrac` from time/time.go: the fraction loop.  Digits are taken least
significant first, trailing zeros are omitted; processed characters
accumulate to the left of `acc`. -/
def fmtFracAux : Nat → Nat → Bool → Str → Str × Nat × Bool
  | 0, v, pr, acc => (acc, v, pr)
  | p + 1, v, pr, acc =>
    if pr || decide (v % 10 ≠ 0) then
      fmtFracAux p (v / 10) true (digitChar (v % 10) :: acc)
    else fmtFracAux p (v / 10) false acc

/-- `fmtFrac(buf, v, prec)`: the emitted fraction (with its leading period,
empty when the fraction is zero) and `v / 10 ^ prec`. -/
def fmtFrac (v prec : Nat) : Str × Nat :=
  let r := fmtFracAux prec v false []
  (if r.2.2 then '.' :: r.1 else r.1, r.2.1)

/-- The unsigned part of `Duration.format` from time/time.go: the textual
form of `u` nanoseconds. -/
def durationBody (u : Nat) : Str :=
  if u < 1000000000 then
    -- less than one second: pick ns/µs/ms with the matching precision
    if u = 0 then '0' :: 's' :: []
    else if u < 1000 then natDec u ++ ['n', 's']
    else if u < 1000000 then
      (fun fr => natDec fr.2 ++ fr.1 ++ ['µ', 's']) (fmtFrac u 3)
    else
      (fun fr => natDec fr.2 ++ fr.1 ++ ['m', 's']) (fmtFrac u 6)
  else
    (fun fr =>
      (fun secPart =>
        (fun u2 =>
          if u2 > 0 then
            (fun minPart =>
              if u2 / 60 > 0 then natDec (u2 / 60) ++ ['h'] ++ minPart ++ secPart
              else minPart ++ secPart) (natDec (u2 % 60) ++ ['m'])
          else secPart) (fr.2 / 60))
        (natDec (fr.2 % 60) ++ fr.1 ++ ['s'])) (fmtFrac u 9)

/-- `Duration.String` from time/time.go, producing e.g. "0s", "123ns",
"1.5µs", "1.002ms", "1h2m3.0045s": the body of the absolute value with a
leading minus sign for negative durations. -/
def durationString (d : Int) : Str :=
  if d < 0 then '-' :: durationBody d.natAbs else durationBody d.natAbs

/-- `leadingInt` from time/format.go: consume a leading run of decimal
digits with the overflow checks of the source. -/
def leadingIntAux : Str → Nat → Except Unit (Nat × Str)
  | [], x => .ok (x, [])
  | c :: rest, x =>
    if ¬ isDigitC c then .ok (x, c :: rest)
    else if x > 2 ^ 63 / 10 then .error ()
    else if x * 10 + digitVal c > 2 ^ 63 then .error ()
    else leadingIntAux rest (x * 10 + digitVal c)

def leadingInt (s : Str) : Except Unit (Nat × Str) := leadingIntAux s 0

/-- `leadingFraction` from time/format.go: consume fraction digits, keeping
value `x` and scale `10 ^ digits` while they fit, skipping further digits
once they would overflow. -/
def leadingFracAux : Str → Nat → Nat → Bool → Nat × Nat × Str
  | [], x, scale, _ => (x, scale, [])
  | c :: rest, x, scale, overflow =>
    if ¬ isDigitC c then (x, scale, c :: rest)
    else if overflow then leadingFracAux rest x scale overflow
    else if x > (2 ^ 63 - 1) / 10 then leadingFracAux rest x scale true
    else if x * 10 + digitVal c > 2 ^ 63 then leadingFracAux rest x scale true
    else leadingFracAux rest (x * 10 + digitVal c) (scale * 10) false

def leadingFraction (s : Str) : Nat × Nat × Str := leadingFracAux s 0 1 false

/-- `unitMap` from time/format.go. -/
def unitValue (u : Str) : Option Nat :=
  if u = ['n', 's'] then some 1
  else if u = ['u', 's'] then some 1000
  else if u = ['µ', 's'] then some 1000 -- U+00B5 micro sign
  else if u = ['μ', 's'] then some 1000 -- U+03BC greek letter mu
  else if u = ['m', 's'] then some 1000000
  else if u = ['s'] then some 1000000000
  else if u = ['m'] then some 60000000000
  else if u = ['h'] then some 3600000000000
  else none

/-- Character class ending a unit run in `ParseDuration`. -/
def isUnitEnd (c : Char) : Bool := c = '.' || isDigitC c

theorem leadingIntAux_rem_le (s : Str) :
    ∀ x v rem, leadingIntAux s x = .ok (v, rem) → rem.length ≤ s.length := by
  induction s with
  | nil =>
    intro x v rem h
    simp [leadingIntAux] at h
    simp [h.2.symm]
  | cons c cs ih =>
    intro x v rem h
    rw [leadingIntAux] at h
    split at h
    · simp at h
      rw [← h.2]
    · split at h
      · simp at h
      · split at h
        · simp at h
        · have := ih _ _ _ h
          rw [List.length_cons]
          omega

theorem leadingFracAux_rem_le (s : Str) :
    ∀ x scale ov, (leadingFracAux s x scale ov).2.2.length ≤ s.length := by
  induction s with
  | nil => intro x scale ov; simp [leadingFracAux]
  | cons c cs ih =>
    intro x scale ov
    rw [leadingFracAux]
    have hstep : cs.length ≤ (c :: cs).length := by
      rw [List.length_cons]; omega
    split
    · simp
    · split
      · exact (ih x scale ov).trans hstep
      · split
        · exact (ih x scale true).trans hstep
        · split
          · exact (ih x scale true).trans hstep
          · exact (ih _ _ false).trans hstep

/-- Unit characters: `ParseDuration` ends the unit run at a period or a
digit. -/
def notUnitEnd (c : Char) : Bool := ¬ isUnitEnd c

/-- The `(\.[0-9]*)?` step of `ParseDuration`: fraction value, scale,
remainder and the `post` flag. -/
def consumeFraction (s1 : Str) : Nat × Nat × Str × Bool :=
  match s1 with
  | c :: rest =>
    if c = '.' then
      let r := leadingFraction rest
      (r.1, r.2.1, r.2.2, decide (r.2.2.length ≠ rest.length))
    else (0, 1, c :: rest, false)
  | [] => (0, 1, [], false)

theorem consumeFraction_rem_le (s1 : Str) :
    (consumeFraction s1).2.2.1.length ≤ s1.length := by
  match s1 with
  | [] => simp [consumeFraction]
  | c :: rest =>
    rw [consumeFraction]
    by_cases hc : c = '.'
    · simp only [hc, if_true]
      exact (leadingFracAux_rem_le rest 0 1 false).trans (by rw [List.length_cons]; omega)
    · simp [hc]

theorem length_dropWhile_lt_of_takeWhile_ne_nil {s2 : Str}
    (hu : ¬ s2.takeWhile notUnitEnd = []) :
    (s2.dropWhile notUnitEnd).length < s2.length := by
  have hsum : (s2.takeWhile notUnitEnd).length + (s2.dropWhile notUnitEnd).length
      = s2.length := by
    conv_rhs => rw [← List.takeWhile_append_dropWhile notUnitEnd s2]
    rw [List.length_append]
  have hne : 0 < (s2.takeWhile notUnitEnd).length := List.length_pos.mpr hu
  omega

/-- The component loop of `time.ParseDuration`; `dAcc` is the accumulated
total in nanoseconds.  The fractional contribution
`uint64(float64(f) * (float64(unit)/scale))` is modelled as
`f * unit / scale`; on every string the formatter can emit (where `scale`
divides `unit`) the float computation is exact and the two agree. -/
def parseDurationLoop (s : Str) (dAcc : Nat) : Except String Nat :=
  match hs : s with
  | [] => .ok dAcc
  | c0 :: _ =>
    if ¬ (c0 = '.' ∨ isDigitC c0 = true) then .error "invalid duration"
    else
      match hli : leadingInt s with
      | .error _ => .error "invalid duration"
      | .ok (v, s1) =>
        let pre : Bool := s1.length ≠ s.length
        let fr := consumeFraction s1
        let f := fr.1
        let scale := fr.2.1
        let s2 := fr.2.2.1
        let post := fr.2.2.2
        if ¬ pre ∧ ¬ post then .error "invalid duration"
        else
          let s3 := s2.dropWhile notUnitEnd
          match hsu : s2.takeWhile notUnitEnd with
          | [] => .error "missing unit in duration"
          | u0 :: urest =>
            match unitValue (u0 :: urest) with
            | none => .error "unknown unit in duration"
            | some unit =>
              if v > 2 ^ 63 / unit then .error "invalid duration"
              else
                let v1 := v * unit
                let v2 := if f > 0 then v1 + f * unit / scale else v1
                if f > 0 ∧ v2 > 2 ^ 63 then .error "invalid duration"
                else if dAcc + v2 > 2 ^ 63 then .error "invalid duration"
                else parseDurationLoop s3 (dAcc + v2)
termination_by s.length
decreasing_by
  · -- the unit run is nonempty, so the remainder shrank strictly
    have h1 : s1.length ≤ s.length := leadingIntAux_rem_le _ _ _ _ hli
    have h2 : (consumeFraction s1).2.2.1.length ≤ s1.length := consumeFraction_rem_le s1
    have hu : ¬ ((consumeFraction s1).2.2.1.takeWhile notUnitEnd) = [] := by
      rw [hsu]
      simp
    have h3 := length_dropWhile_lt_of_takeWhile_ne_nil hu
    rw [hs] at h1
    simp only [List.length_cons] at h1 ⊢
    omega

/-! Characterisation of `fmtFrac`: zero-padded digit blocks with trailing
zeros trimmed. -/

/-- `m` printed as exactly `L` zero-padded decimal digits (used to describe
`fmtFrac` output). -/
def padDigits : Nat → Nat → Str
  | 0, _ => []
  | l + 1, m => padDigits l (m / 10) ++ [digitChar (m % 10)]

/-- The digit block `fmtFrac v p` emits when the fraction is nonzero:
`v % 10 ^ p` zero-padded to `p` digits with trailing zeros removed. -/
def fracDigits : Nat → Nat → Str
  | 0, _ => []
  | p + 1, v => if v % 10 = 0 then fracDigits p (v / 10) else padDigits (p + 1) v

theorem padDigits_length (l m : Nat) : (padDigits l m).length = l := by
  induction l generalizing m with
  | zero => rfl
  | succ l ih => simp [padDigits, ih]

theorem padDigits_digits (l m : Nat) : ∀ c ∈ padDigits l m, isDigitC c = true := by
  induction l generalizing m with
  | zero => simp [padDigits]
  | succ l ih =>
    intro c hc
    rw [padDigits] at hc
    rcases List.mem_append.mp hc with h | h
    · exact ih (m / 10) c h
    · simp at h
      subst h
      exact digitChar_isDigit (Nat.mod_lt m (by omega))

theorem mod_pow_succ_ten (m l : Nat) :
    m % 10 ^ (l + 1) = m / 10 % 10 ^ l * 10 + m % 10 := by
  have hps : (10:Nat) ^ (l + 1) = 10 * 10 ^ l := by rw [pow_succ']
  have hdvd : (10:Nat) ∣ 10 * 10 ^ l := ⟨10 ^ l, rfl⟩
  have h1 : m % (10 * 10 ^ l) / 10 = m / 10 % 10 ^ l :=
    Nat.mod_mul_right_div_self m 10 (10 ^ l)
  have h2 : m % (10 * 10 ^ l) % 10 = m % 10 := Nat.mod_mod_of_dvd m hdvd
  have h3 : 10 * (m % (10 * 10 ^ l) / 10) + m % (10 * 10 ^ l) % 10 = m % (10 * 10 ^ l) :=
    Nat.div_add_mod _ 10
  rw [hps]
  omega

theorem padDigits_decVal (l m : Nat) : decVal (padDigits l m) = m % 10 ^ l := by
  induction l generalizing m with
  | zero => simp [padDigits, decVal, Nat.mod_one]
  | succ l ih =>
    rw [padDigits, decVal_append, ih]
    have h1 : decVal [digitChar (m % 10)] = m % 10 := by
      simp [decVal, digitVal_digitChar (Nat.mod_lt m (show 0 < 10 by omega))]
    rw [h1]
    simp only [List.length_singleton, pow_one]
    exact (mod_pow_succ_ten m l).symm

/-- Run `fmtFracAux` with the print flag already set: all remaining digits
are emitted. -/
theorem fmtFracAux_true (p : Nat) : ∀ v acc,
    fmtFracAux p v true acc = (padDigits p v ++ acc, v / 10 ^ p, true) := by
  induction p with
  | zero => intro v acc; simp [fmtFracAux, padDigits]
  | succ p ih =>
    intro v acc
    rw [fmtFracAux]
    simp only [Bool.true_or, if_true]
    rw [ih]
    rw [show padDigits (p + 1) v = padDigits p (v / 10) ++ [digitChar (v % 10)] from rfl]
    simp only [List.append_assoc, List.singleton_append]
    rw [Nat.div_div_eq_div_mul, ← pow_succ']

/-- Run `fmtFracAux` with the print flag unset: trailing zeros are dropped
and the flag reports whether anything was printed. -/
theorem fmtFracAux_false (p : Nat) : ∀ v acc,
    fmtFracAux p v false acc =
      (fracDigits p v ++ acc, v / 10 ^ p, decide (v % 10 ^ p ≠ 0)) := by
  induction p with
  | zero => intro v acc; simp [fmtFracAux, fracDigits, Nat.mod_one]
  | succ p ih =>
    intro v acc
    rw [fmtFracAux]
    by_cases hz : v % 10 = 0
    · rw [if_neg (by simp [hz])]
      rw [ih]
      rw [fracDigits, if_pos hz]
      rw [Nat.div_div_eq_div_mul, ← pow_succ']
      have hmod : decide (v / 10 % 10 ^ p ≠ 0) = decide (v % 10 ^ (p + 1) ≠ 0) := by
        refine decide_eq_decide.mpr ?_
        rw [mod_pow_succ_ten]
        omega
      rw [hmod]
    · rw [if_pos (by simp [hz])]
      rw [fmtFracAux_true]
      rw [fracDigits, if_neg hz]
      rw [show padDigits (p + 1) v = padDigits p (v / 10) ++ [digitChar (v % 10)] from rfl]
      simp only [List.append_assoc, List.singleton_append]
      rw [Nat.div_div_eq_div_mul, ← pow_succ']
      have hne : v % 10 ^ (p + 1) ≠ 0 := by
        rw [mod_pow_succ_ten]
        omega
      simp [hne]

/-- Full characterisation of `fmtFrac`. -/
theorem fmtFrac_eq (v p : Nat) :
    fmtFrac v p =
      (if v % 10 ^ p ≠ 0 then '.' :: fracDigits p v else fracDigits p v, v / 10 ^ p) := by
  rw [fmtFrac, fmtFracAux_false]
  by_cases h : v % 10 ^ p ≠ 0 <;> simp [h]

theorem fracDigits_length_le (p : Nat) : ∀ v, (fracDigits p v).length ≤ p := by
  induction p with
  | zero => intro v; simp [fracDigits]
  | succ p ih =>
    intro v
    rw [fracDigits]
    by_cases hz : v % 10 = 0
    · rw [if_pos hz]
      exact (ih (v / 10)).trans (by omega)
    · rw [if_neg hz, padDigits_length]

theorem fracDigits_digits (p : Nat) : ∀ v, ∀ c ∈ fracDigits p v, isDigitC c = true := by
  induction p with
  | zero => intro v; simp [fracDigits]
  | succ p ih =>
    intro v c hc
    rw [fracDigits] at hc
    by_cases hz : v % 10 = 0
    · rw [if_pos hz] at hc
      exact ih (v / 10) c hc
    · rw [if_neg hz] at hc
      exact padDigits_digits (p + 1) v c hc

/-- Value identity for the trimmed fraction block: restoring the dropped
trailing zeros recovers `v % 10 ^ p`. -/
theorem fracDigits_decVal (p : Nat) : ∀ v, v % 10 ^ p ≠ 0 →
    decVal (fracDigits p v) * 10 ^ (p - (fracDigits p v).length) = v % 10 ^ p := by
  induction p with
  | zero => intro v h; exact absurd (Nat.mod_one v) h
  | succ p ih =>
    intro v h
    rw [fracDigits]
    by_cases hz : v % 10 = 0
    · rw [if_pos hz]
      have hins : v / 10 % 10 ^ p ≠ 0 := by
        rw [mod_pow_succ_ten] at h
        omega
      have hlen : (fracDigits p (v / 10)).length ≤ p := fracDigits_length_le p (v / 10)
      have := ih (v / 10) hins
      have hsub : p + 1 - (fracDigits p (v / 10)).length
          = (p - (fracDigits p (v / 10)).length) + 1 := by omega
      rw [hsub, pow_succ, ← Nat.mul_assoc, this, mod_pow_succ_ten]
      omega
    · rw [if_neg hz, padDigits_decVal, padDigits_length]
      simp

theorem fracDigits_nil_of_mod_zero (p : Nat) : ∀ v, v % 10 ^ p = 0 → fracDigits p v = [] := by
  induction p with
  | zero => intro v _; rfl
  | succ p ih =>
    intro v h
    have h10 : v % 10 = 0 := by
      rw [mod_pow_succ_ten] at h
      omega
    rw [fracDigits, if_pos h10]
    refine ih (v / 10) ?_
    rw [mod_pow_succ_ten] at h
    omega

theorem fracDigits_ne_nil (p v : Nat) (h : v % 10 ^ p ≠ 0) : fracDigits p v ≠ [] := by
  intro hnil
  have := fracDigits_decVal p v h
  rw [hnil] at this
  simp [decVal] at this
  exact h this.symm

theorem fracDigits_decVal_pos (p v : Nat) (h : v % 10 ^ p ≠ 0) :
    0 < decVal (fracDigits p v) := by
  by_contra hc
  have h0 : decVal (fracDigits p v) = 0 := by omega
  have := fracDigits_decVal p v h
  rw [h0] at this
  simp at this
  exact h this.symm

/-- The head of `s` (if any) fails the predicate `p`: a scan for `p` stops
exactly at the end of a prefix appended before `s`. -/
def headStopsRun (p : Char → Bool) : Str → Prop
  | [] => True
  | c :: _ => p c = false

theorem takeWhile_append_run (p : Char → Bool) (u rest : Str)
    (hu : ∀ c ∈ u, p c = true) (hr : headStopsRun p rest) :
    (u ++ rest).takeWhile p = u ∧ (u ++ rest).dropWhile p = rest := by
  induction u with
  | nil =>
    simp only [List.nil_append]
    match rest with
    | [] => exact ⟨rfl, rfl⟩
    | c :: cs =>
      have hc : p c = false := hr
      constructor
      · rw [List.takeWhile_cons, hc]
        simp
      · rw [List.dropWhile_cons, hc]
        simp
  | cons c cs ih =>
    have hc : p c = true := hu c (by simp)
    obtain ⟨h1, h2⟩ := ih (fun x hx => hu x (by simp [hx]))
    constructor
    · rw [List.cons_append, List.takeWhile_cons, hc]
      simp [h1]
    · rw [List.cons_append, List.dropWhile_cons, hc]
      simp [h2]

theorem leadingIntAux_digits (ds : Str) : ∀ (rest : Str) (x : Nat),
    (∀ c ∈ ds, isDigitC c = true) → headStopsRun isDigitC rest →
    x * 10 ^ ds.length + decVal ds ≤ 2 ^ 63 →
    leadingIntAux (ds ++ rest) x = .ok (x * 10 ^ ds.length + decVal ds, rest) := by
  induction ds with
  | nil =>
    intro rest x _ hr hb
    simp only [List.nil_append, List.length_nil, pow_zero, Nat.mul_one]
    match rest with
    | [] => simp [leadingIntAux, decVal]
    | c :: cs =>
      have hc : isDigitC c = false := hr
      rw [leadingIntAux, if_pos (by simp [hc])]
      simp [decVal]
  | cons c cs ih =>
    intro rest x hd hr hb
    have hc : isDigitC c = true := hd c (by simp)
    have hdval : decVal (c :: cs) = digitVal c * 10 ^ cs.length + decVal cs := by
      rw [show (c :: cs : Str) = [c] ++ cs from rfl, decVal_append]
      simp [decVal]
    have hd10 : digitVal c < 10 := digitVal_lt_of_isDigit hc
    have hp : 1 ≤ (10:Nat) ^ cs.length := Nat.one_le_pow _ _ (by omega)
    have hlen : (10:Nat) ^ (c :: cs : Str).length = 10 ^ cs.length * 10 := by
      rw [List.length_cons, pow_succ]
    have hx10 : x * 10 * 10 ^ cs.length + (digitVal c * 10 ^ cs.length + decVal cs)
        ≤ 2 ^ 63 := by
      rw [hlen] at hb
      rw [hdval] at hb
      nlinarith
    rw [List.cons_append, leadingIntAux, if_neg (by simp [hc])]
    have hxle : ¬ (x > 2 ^ 63 / 10) := by
      have h1 : x * 10 ≤ 2 ^ 63 := by nlinarith
      have := (Nat.le_div_iff_mul_le (show 0 < 10 by omega)).mpr h1
      omega
    rw [if_neg hxle]
    have hyle : ¬ (x * 10 + digitVal c > 2 ^ 63) := by nlinarith
    rw [if_neg hyle]
    rw [ih rest (x * 10 + digitVal c) (fun y hy => hd y (by simp [hy])) hr (by nlinarith)]
    congr 2
    rw [hlen, hdval]
    ring

theorem leadingFracAux_digits (ds : Str) : ∀ (rest : Str) (x scale : Nat),
    (∀ c ∈ ds, isDigitC c = true) → headStopsRun isDigitC rest →
    x * 10 ^ ds.length + decVal ds < 10 ^ 9 →
    leadingFracAux (ds ++ rest) x scale false =
      (x * 10 ^ ds.length + decVal ds, scale * 10 ^ ds.length, rest) := by
  induction ds with
  | nil =>
    intro rest x scale _ hr hb
    simp only [List.nil_append, List.length_nil, pow_zero, Nat.mul_one]
    match rest with
    | [] => simp [leadingFracAux, decVal]
    | c :: cs =>
      have hc : isDigitC c = false := hr
      rw [leadingFracAux, if_pos (by simp [hc])]
      simp [decVal]
  | cons c cs ih =>
    intro rest x scale hd hr hb
    have hc : isDigitC c = true := hd c (by simp)
    have hdval : decVal (c :: cs) = digitVal c * 10 ^ cs.length + decVal cs := by
      rw [show (c :: cs : Str) = [c] ++ cs from rfl, decVal_append]
      simp [decVal]
    have hd10 : digitVal c < 10 := digitVal_lt_of_isDigit hc
    have hp : 1 ≤ (10:Nat) ^ cs.length := Nat.one_le_pow _ _ (by omega)
    have hlen : (10:Nat) ^ (c :: cs : Str).length = 10 ^ cs.length * 10 := by
      rw [List.length_cons, pow_succ]
    have hb' : x * 10 * 10 ^ cs.length + (digitVal c * 10 ^ cs.length + decVal cs)
        < 10 ^ 9 := by
      rw [hlen, hdval] at hb
      nlinarith
    rw [List.cons_append, leadingFracAux, if_neg (by simp [hc])]
    rw [if_neg (by simp)]
    have hx1 : ¬ (x > (2 ^ 63 - 1) / 10) := by
      have h1 : x ≤ x * 10 * 10 ^ cs.length := by nlinarith
      have h2 : x < 10 ^ 9 := by nlinarith
      omega
    rw [if_neg hx1]
    have hy1 : ¬ (x * 10 + digitVal c > 2 ^ 63) := by
      have h2 : x * 10 + digitVal c ≤ x * 10 * 10 ^ cs.length + digitVal c * 10 ^ cs.length := by
        nlinarith
      omega
    rw [if_neg hy1]
    rw [ih rest (x * 10 + digitVal c) (scale * 10) (fun y hy => hd y (by simp [hy])) hr
      (by nlinarith)]
    rw [hlen, hdval]
    simp only [Prod.mk.injEq]
    refine ⟨by ring, by ring, trivial⟩

theorem notUnitEnd_spec {c : Char} (h : notUnitEnd c = true) :
    c ≠ '.' ∧ isDigitC c = false := by
  simp only [notUnitEnd, isUnitEnd, decide_eq_true_eq] at h
  constructor
  · intro hc
    exact h (by simp [hc])
  · by_contra hd
    exact h (by simp at hd ⊢; right; exact hd)

theorem natDec_cons (V : Nat) :
    ∃ c cs, natDec V = c :: cs ∧ isDigitC c = true ∧ (∀ x ∈ cs, isDigitC x = true) := by
  rcases hd : natDec V with _ | ⟨c, cs⟩
  · exact absurd hd (natDec_ne_nil V)
  · refine ⟨c, cs, rfl, ?_, ?_⟩
    · exact natDec_all_digits V c (by rw [hd]; simp)
    · intro x hx
      exact natDec_all_digits V x (by rw [hd]; simp [hx])

/-- One fraction-free component of the duration grammar: integer digits
followed by a unit, with everything the parser checks discharged. -/
theorem parseDurationLoop_comp_nofrac (V dAcc unit : Nat) (u rest : Str)
    (hu : unitValue u = some unit) (hune : u ≠ [])
    (huc : ∀ c ∈ u, notUnitEnd c = true)
    (hrest : headStopsRun notUnitEnd rest)
    (hV : ¬ V > 2 ^ 63 / unit)
    (hsum : ¬ dAcc + V * unit > 2 ^ 63) :
    parseDurationLoop (natDec V ++ (u ++ rest)) dAcc
      = parseDurationLoop rest (dAcc + V * unit) := by
  obtain ⟨c, cs, hnd, hcd, hcsd⟩ := natDec_cons V
  obtain ⟨u0, us, huu⟩ : ∃ u0 us, u = u0 :: us := by
    rcases u with _ | ⟨u0, us⟩
    · exact absurd rfl hune
    · exact ⟨u0, us, rfl⟩
  obtain ⟨hu0dot, hu0dig⟩ := notUnitEnd_spec (huc u0 (by rw [huu]; simp))
  have hVle : V ≤ 2 ^ 63 := le_trans (by omega) (Nat.div_le_self (2 ^ 63) unit)
  have hstops : headStopsRun isDigitC (u ++ rest) := by
    rw [huu]
    exact hu0dig
  have hli : leadingInt (natDec V ++ (u ++ rest)) = .ok (V, u ++ rest) := by
    rw [leadingInt, leadingIntAux_digits (natDec V) (u ++ rest) 0
      (natDec_all_digits V) hstops (by rw [decVal_natDec]; omega)]
    rw [decVal_natDec]
    simp
  have hcf : consumeFraction (u ++ rest) = (0, 1, u ++ rest, false) := by
    rw [huu, List.cons_append, consumeFraction, if_neg hu0dot]
  obtain ⟨htw, hdw⟩ := takeWhile_append_run notUnitEnd u rest huc hrest
  rw [hnd, List.cons_append, parseDurationLoop]
  rw [if_neg (by simp [hcd])]
  rw [← List.cons_append, ← hnd]
  split
  case _ e heq => rw [hli] at heq; cases heq
  case _ v s1 heq =>
    rw [hli] at heq
    injection heq with heq2
    injection heq2 with hv hs1
    subst hv
    subst hs1
    simp only [hcf]
    rw [if_neg (by simp [natDec_ne_nil V])]
    split
    case _ heq2 =>
      simp only [hcf] at heq2
      rw [htw] at heq2
      exact absurd heq2 hune
    case _ u0' urest' heq2 =>
      simp only [hcf] at heq2
      rw [htw] at heq2
      rw [← heq2]
      simp only [hu]
      rw [if_neg hV]
      rw [if_neg (by simp)]
      simp only [gt_iff_lt, lt_self_iff_false, if_false]
      rw [if_neg hsum, hdw]

/-- One fractional component of the duration grammar: integer digits, a
period, the trimmed fraction block of `v % 10 ^ p`, and a unit worth
`10 ^ p` nanoseconds. -/
theorem parseDurationLoop_comp_frac (V dAcc p vfrac : Nat) (u rest : Str)
    (hu : unitValue u = some (10 ^ p)) (hune : u ≠ [])
    (huc : ∀ c ∈ u, notUnitEnd c = true)
    (hrest : headStopsRun notUnitEnd rest)
    (hfr : vfrac % 10 ^ p ≠ 0) (hp9 : p ≤ 9)
    (hV : ¬ V > 2 ^ 63 / 10 ^ p)
    (hsum : ¬ dAcc + (V * 10 ^ p + vfrac % 10 ^ p) > 2 ^ 63) :
    parseDurationLoop (natDec V ++ ('.' :: fracDigits p vfrac) ++ (u ++ rest)) dAcc
      = parseDurationLoop rest (dAcc + (V * 10 ^ p + vfrac % 10 ^ p)) := by
  obtain ⟨c, cs, hnd, hcd, hcsd⟩ := natDec_cons V
  obtain ⟨u0, us, huu⟩ : ∃ u0 us, u = u0 :: us := by
    rcases u with _ | ⟨u0, us⟩
    · exact absurd rfl hune
    · exact ⟨u0, us, rfl⟩
  obtain ⟨hu0dot, hu0dig⟩ := notUnitEnd_spec (huc u0 (by rw [huu]; simp))
  have hVle : V ≤ 2 ^ 63 := le_trans (by omega) (Nat.div_le_self (2 ^ 63) (10 ^ p))
  have hstops : headStopsRun isDigitC (u ++ rest) := by
    rw [huu]
    exact hu0dig
  set fds := fracDigits p vfrac with hfds
  have hfdsne : fds ≠ [] := fracDigits_ne_nil p vfrac hfr
  have hfdsd : ∀ x ∈ fds, isDigitC x = true := fracDigits_digits p vfrac
  have hfdslen : fds.length ≤ p := fracDigits_length_le p vfrac
  have hfval : decVal fds * 10 ^ (p - fds.length) = vfrac % 10 ^ p :=
    fracDigits_decVal p vfrac hfr
  have hfpos : 0 < decVal fds := fracDigits_decVal_pos p vfrac hfr
  have hfbound : decVal fds < 10 ^ 9 := by
    have h1 : decVal fds < 10 ^ fds.length := decVal_lt fds hfdsd
    have h2 : (10:Nat) ^ fds.length ≤ 10 ^ 9 :=
      Nat.pow_le_pow_right (by omega) (by omega)
    omega
  -- the string after the integer digits
  have hmid : ('.' :: fds) ++ (u ++ rest) = '.' :: (fds ++ (u ++ rest)) := rfl
  have hsdig : headStopsRun isDigitC ('.' :: (fds ++ (u ++ rest))) := by
    show isDigitC '.' = false
    decide
  have hli : leadingInt (natDec V ++ ('.' :: (fds ++ (u ++ rest))))
      = .ok (V, '.' :: (fds ++ (u ++ rest))) := by
    rw [leadingInt, leadingIntAux_digits (natDec V) _ 0
      (natDec_all_digits V) hsdig (by rw [decVal_natDec]; omega)]
    rw [decVal_natDec]
    simp
  have hlf : leadingFraction (fds ++ (u ++ rest))
      = (decVal fds, 10 ^ fds.length, u ++ rest) := by
    rw [leadingFraction, leadingFracAux_digits fds (u ++ rest) 0 1 hfdsd hstops
      (by simpa using hfbound)]
    simp
  have hcf : consumeFraction ('.' :: (fds ++ (u ++ rest)))
      = (decVal fds, 10 ^ fds.length, u ++ rest,
          decide ((u ++ rest).length ≠ (fds ++ (u ++ rest)).length)) := by
    rw [consumeFraction, if_pos rfl]
    simp only [hlf]
  have hpost : ((u ++ rest).length ≠ (fds ++ (u ++ rest)).length) := by
    rcases fds with _ | ⟨f0, fs⟩
    · exact absurd rfl hfdsne
    · simp only [List.cons_append, List.length_cons, List.length_append]
      omega
  obtain ⟨htw, hdw⟩ := takeWhile_append_run notUnitEnd u rest huc hrest
  have hfdiv : decVal fds * 10 ^ p / 10 ^ fds.length = vfrac % 10 ^ p := by
    have hsplit : (10:Nat) ^ p = 10 ^ fds.length * 10 ^ (p - fds.length) := by
      rw [← pow_add]
      congr 1
      omega
    rw [hsplit, ← Nat.mul_assoc, Nat.mul_comm (decVal fds) (10 ^ fds.length),
      Nat.mul_assoc, Nat.mul_div_cancel_left]
    · rw [← hsplit]
      exact hfval
    · exact Nat.pos_pow_of_pos _ (by omega)
  rw [List.append_assoc, hmid]
  rw [hnd, List.cons_append, parseDurationLoop]
  rw [if_neg (by simp [hcd])]
  rw [← List.cons_append, ← hnd]
  split
  case _ e heq => rw [hli] at heq; cases heq
  case _ v s1 heq =>
    rw [hli] at heq
    injection heq with heq2
    injection heq2 with hv hs1
    subst hv
    subst hs1
    simp only [hcf]
    rw [if_neg (by simp [hpost, natDec_ne_nil V])]
    split
    case _ heq2 =>
      simp only [hcf] at heq2
      rw [htw] at heq2
      exact absurd heq2 hune
    case _ u0' urest' heq2 =>
      simp only [hcf] at heq2
      rw [htw] at heq2
      rw [← heq2]
      simp only [hu]
      rw [if_neg hV]
      have hfposT : (decVal fds > 0) = True := by simp [hfpos]
      simp only [hfposT, if_true, true_and]
      rw [hfdiv]
      rw [if_neg (by omega)]
      rw [if_neg hsum, hdw]

/-- `time.ParseDuration` from time/format.go. -/
def parseDuration (s : Str) : Except String Int :=
  let (neg, s1) : Bool × Str :=
    match s with
    | c :: rest =>
      if c = '-' then (true, rest)
      else if c = '+' then (false, rest)
      else (false, c :: rest)
    | [] => (false, [])
  if s1 = ['0'] then .ok 0
  else if s1 = [] then .error "invalid duration"
  else
    match parseDurationLoop s1 0 with
    | .error e => .error e
    | .ok d =>
      if neg then .ok (-(d : Int))
      else if d > 2 ^ 63 - 1 then .error "invalid duration"
      else .ok (d : Int)

theorem parseDurationLoop_nil (dAcc : Nat) : parseDurationLoop [] dAcc = .ok dAcc := by
  rw [parseDurationLoop]

theorem notUnitEnd_digit {c : Char} (h : isDigitC c = true) : notUnitEnd c = false := by
  simp [notUnitEnd, isUnitEnd, h]

theorem headStopsRun_natDec_append (x : Nat) (t : Str) :
    headStopsRun notUnitEnd (natDec x ++ t) := by
  obtain ⟨c, cs, hnd, hcd, _⟩ := natDec_cons x
  rw [hnd]
  show notUnitEnd c = false
  exact notUnitEnd_digit hcd


/-- The seconds component `S[.frac]s` of a formatted duration: parsing it
adds `S * 10^9 + (u mod 10^9)` nanoseconds. -/
theorem parseSecondsAux (u dAcc : Nat)
    (hsum : dAcc + (u / 10 ^ 9 % 60 * 10 ^ 9 + u % 10 ^ 9) ≤ 2 ^ 63) :
    parseDurationLoop
      (natDec (u / 10 ^ 9 % 60) ++
        ((if u % 10 ^ 9 ≠ 0 then '.' :: fracDigits 9 u else fracDigits 9 u) ++ ['s'])) dAcc
      = .ok (dAcc + (u / 10 ^ 9 % 60 * 10 ^ 9 + u % 10 ^ 9)) := by
  have h2 : ∀ c ∈ (['s'] : Str), notUnitEnd c = true := by decide
  have h3 : ¬ (u / 10 ^ 9 % 60) > 2 ^ 63 / 10 ^ 9 := by
    have := Nat.mod_lt (u / 10 ^ 9) (show 0 < 60 by omega)
    omega
  have h4 : ¬ dAcc + (u / 10 ^ 9 % 60 * 10 ^ 9 + u % 10 ^ 9) > 2 ^ 63 := by omega
  have hnes : (['s'] : Str) ≠ [] := by simp
  by_cases hr : u % 10 ^ 9 ≠ 0
  · rw [if_pos hr]
    have h1 : unitValue ['s'] = some (10 ^ 9) := rfl
    have hsh : natDec (u / 10 ^ 9 % 60) ++ (('.' :: fracDigits 9 u) ++ ['s'])
        = natDec (u / 10 ^ 9 % 60) ++ ('.' :: fracDigits 9 u) ++ (['s'] ++ []) := by
      simp
    rw [hsh, parseDurationLoop_comp_frac (u / 10 ^ 9 % 60) dAcc 9 u ['s'] [] h1
      hnes h2 trivial hr (by omega) h3 h4]
    rw [parseDurationLoop_nil]
  · rw [if_neg hr]
    have hr0 : u % 10 ^ 9 = 0 := by omega
    rw [fracDigits_nil_of_mod_zero 9 u hr0]
    have h1 : unitValue ['s'] = some 1000000000 := rfl
    have h4' : ¬ dAcc + (u / 10 ^ 9 % 60) * 1000000000 > 2 ^ 63 := by omega
    have h3' : ¬ (u / 10 ^ 9 % 60) > 2 ^ 63 / 1000000000 := by
      have := Nat.mod_lt (u / 10 ^ 9) (show 0 < 60 by omega)
      omega
    have hsh : natDec (u / 10 ^ 9 % 60) ++ (([] : Str) ++ ['s'])
        = natDec (u / 10 ^ 9 % 60) ++ (['s'] ++ []) := by simp
    rw [hsh, parseDurationLoop_comp_nofrac (u / 10 ^ 9 % 60) dAcc 1000000000 ['s'] [] h1
      hnes h2 trivial h3' h4']
    rw [parseDurationLoop_nil]
    exact congrArg Except.ok (by omega)

/-- The minutes-and-seconds tail `MmS[.frac]s` of a formatted duration. -/
theorem parseMinSecAux (u dAcc : Nat)
    (hsum : dAcc + (u / 10 ^ 9 / 60 % 60 * 60000000000
        + (u / 10 ^ 9 % 60 * 10 ^ 9 + u % 10 ^ 9)) ≤ 2 ^ 63) :
    parseDurationLoop
      (natDec (u / 10 ^ 9 / 60 % 60) ++ (['m'] ++
        (natDec (u / 10 ^ 9 % 60) ++
          ((if u % 10 ^ 9 ≠ 0 then '.' :: fracDigits 9 u else fracDigits 9 u) ++ ['s'])))) dAcc
      = .ok (dAcc + (u / 10 ^ 9 / 60 % 60 * 60000000000
          + (u / 10 ^ 9 % 60 * 10 ^ 9 + u % 10 ^ 9))) := by
  rw [parseDurationLoop_comp_nofrac (u / 10 ^ 9 / 60 % 60) dAcc 60000000000 ['m'] _ rfl
    (by simp) (by decide) (headStopsRun_natDec_append _ _)
    (by have := Nat.mod_lt (u / 10 ^ 9 / 60) (show 0 < 60 by omega); omega)
    (by omega)]
  rw [parseSecondsAux u _ (by omega)]
  exact congrArg Except.ok (by omega)

/-- The formatted body of `u` nanoseconds parses back to `u`. -/
theorem durationBody_loop (u : Nat) (hu : u ≤ 2 ^ 63) :
    parseDurationLoop (durationBody u) 0 = .ok u := by
  rw [durationBody]
  by_cases hsub : u < 1000000000
  · rw [if_pos hsub]
    by_cases h0 : u = 0
    · rw [if_pos h0]
      subst h0
      have hsh : ('0' :: 's' :: [] : Str) = natDec 0 ++ (['s'] ++ []) := by
        rw [natDec_small (by omega)]
        rfl
      rw [hsh, parseDurationLoop_comp_nofrac 0 0 1000000000 ['s'] [] rfl (by simp)
        (by decide) trivial (by omega) (by omega)]
      rw [parseDurationLoop_nil]
    · rw [if_neg h0]
      by_cases hns : u < 1000
      · rw [if_pos hns]
        have hsh : natDec u ++ ['n', 's'] = natDec u ++ (['n', 's'] ++ []) := by simp
        rw [hsh, parseDurationLoop_comp_nofrac u 0 1 ['n', 's'] [] rfl (by simp)
          (by decide) trivial (by omega) (by omega)]
        rw [parseDurationLoop_nil]
        exact congrArg Except.ok (by omega)
      · rw [if_neg hns]
        by_cases hmicro : u < 1000000
        · rw [if_pos hmicro, fmtFrac_eq]
          simp only []
          by_cases hr : u % 10 ^ 3 ≠ 0
          · rw [if_pos hr]
            have hsh : natDec (u / 10 ^ 3) ++ ('.' :: fracDigits 3 u) ++ ['µ', 's']
                = natDec (u / 10 ^ 3) ++ ('.' :: fracDigits 3 u) ++ (['µ', 's'] ++ []) := by
              simp
            rw [hsh, parseDurationLoop_comp_frac (u / 10 ^ 3) 0 3 u ['µ', 's'] [] rfl
              (by simp) (by decide) trivial hr (by omega) (by omega)
              (by have := Nat.div_add_mod u (10 ^ 3); omega)]
            rw [parseDurationLoop_nil]
            exact congrArg Except.ok (by have := Nat.div_add_mod u (10 ^ 3); omega)
          · rw [if_neg hr]
            have hr0 : u % 10 ^ 3 = 0 := by omega
            rw [fracDigits_nil_of_mod_zero 3 u hr0]
            have hsh : natDec (u / 10 ^ 3) ++ ([] : Str) ++ ['µ', 's']
                = natDec (u / 10 ^ 3) ++ (['µ', 's'] ++ []) := by simp
            rw [hsh, parseDurationLoop_comp_nofrac (u / 10 ^ 3) 0 1000 ['µ', 's'] [] rfl
              (by simp) (by decide) trivial (by omega)
              (by have := Nat.div_add_mod u (10 ^ 3); omega)]
            rw [parseDurationLoop_nil]
            exact congrArg Except.ok (by have := Nat.div_add_mod u (10 ^ 3); omega)
        · rw [if_neg hmicro, fmtFrac_eq]
          simp only []
          by_cases hr : u % 10 ^ 6 ≠ 0
          · rw [if_pos hr]
            have hsh : natDec (u / 10 ^ 6) ++ ('.' :: fracDigits 6 u) ++ ['m', 's']
                = natDec (u / 10 ^ 6) ++ ('.' :: fracDigits 6 u) ++ (['m', 's'] ++ []) := by
              simp
            rw [hsh, parseDurationLoop_comp_frac (u / 10 ^ 6) 0 6 u ['m', 's'] [] rfl
              (by simp) (by decide) trivial hr (by omega) (by omega)
              (by have := Nat.div_add_mod u (10 ^ 6); omega)]
            rw [parseDurationLoop_nil]
            exact congrArg Except.ok (by have := Nat.div_add_mod u (10 ^ 6); omega)
          · rw [if_neg hr]
            have hr0 : u % 10 ^ 6 = 0 := by omega
            rw [fracDigits_nil_of_mod_zero 6 u hr0]
            have hsh : natDec (u / 10 ^ 6) ++ ([] : Str) ++ ['m', 's']
                = natDec (u / 10 ^ 6) ++ (['m', 's'] ++ []) := by simp
            rw [hsh, parseDurationLoop_comp_nofrac (u / 10 ^ 6) 0 1000000 ['m', 's'] [] rfl
              (by simp) (by decide) trivial (by omega)
              (by have := Nat.div_add_mod u (10 ^ 6); omega)]
            rw [parseDurationLoop_nil]
            exact congrArg Except.ok (by have := Nat.div_add_mod u (10 ^ 6); omega)
  · rw [if_neg hsub, fmtFrac_eq]
    simp only []
    have h9 := Nat.div_add_mod u (10 ^ 9)
    have h60a := Nat.div_add_mod (u / 10 ^ 9) 60
    have h60b := Nat.div_add_mod (u / 10 ^ 9 / 60) 60
    have hm9 := Nat.mod_lt u (show 0 < 10 ^ 9 by omega)
    have hm60a := Nat.mod_lt (u / 10 ^ 9) (show 0 < 60 by omega)
    have hm60b := Nat.mod_lt (u / 10 ^ 9 / 60) (show 0 < 60 by omega)
    by_cases h2 : u / 10 ^ 9 / 60 > 0
    · rw [if_pos h2]
      by_cases h3 : u / 10 ^ 9 / 60 / 60 > 0
      · rw [if_pos h3]
        have hdiv : u / 10 ^ 9 / 60 / 60 = u / 3600000000000 := by
          rw [Nat.div_div_eq_div_mul, Nat.div_div_eq_div_mul]
          norm_num
        have hVh : ¬ u / 10 ^ 9 / 60 / 60 > 2 ^ 63 / 3600000000000 := by
          rw [hdiv]
          have hle : u / 3600000000000 ≤ 2 ^ 63 / 3600000000000 :=
            Nat.div_le_div_right hu
          omega
        have hmul : u / 10 ^ 9 / 60 / 60 * 3600000000000 ≤ u := by
          rw [hdiv]
          exact Nat.div_mul_le_self u 3600000000000
        have hsh : natDec (u / 10 ^ 9 / 60 / 60) ++ ['h']
              ++ (natDec (u / 10 ^ 9 / 60 % 60) ++ ['m'])
              ++ (natDec (u / 10 ^ 9 % 60) ++
                (if u % 10 ^ 9 ≠ 0 then '.' :: fracDigits 9 u else fracDigits 9 u) ++ ['s'])
            = natDec (u / 10 ^ 9 / 60 / 60) ++ (['h'] ++
                (natDec (u / 10 ^ 9 / 60 % 60) ++ (['m'] ++
                  (natDec (u / 10 ^ 9 % 60) ++
                    ((if u % 10 ^ 9 ≠ 0 then '.' :: fracDigits 9 u else fracDigits 9 u)
                      ++ ['s']))))) := by
          simp [List.append_assoc]
        rw [hsh]
        rw [parseDurationLoop_comp_nofrac (u / 10 ^ 9 / 60 / 60) 0 3600000000000 ['h'] _ rfl
          (by simp) (by decide) (headStopsRun_natDec_append _ _) hVh (by omega)]
        rw [parseMinSecAux u _ (by omega)]
        exact congrArg Except.ok (by omega)
      · rw [if_neg h3]
        have h30 : u / 10 ^ 9 / 60 / 60 = 0 := by omega
        have hsh : natDec (u / 10 ^ 9 / 60 % 60) ++ ['m']
              ++ (natDec (u / 10 ^ 9 % 60) ++
                (if u % 10 ^ 9 ≠ 0 then '.' :: fracDigits 9 u else fracDigits 9 u) ++ ['s'])
            = natDec (u / 10 ^ 9 / 60 % 60) ++ (['m'] ++
                (natDec (u / 10 ^ 9 % 60) ++
                  ((if u % 10 ^ 9 ≠ 0 then '.' :: fracDigits 9 u else fracDigits 9 u)
                    ++ ['s']))) := by
          simp [List.append_assoc]
        rw [hsh, parseMinSecAux u 0 (by omega)]
        exact congrArg Except.ok (by omega)
    · rw [if_neg h2]
      have h20 : u / 10 ^ 9 / 60 = 0 := by omega
      have hsh : natDec (u / 10 ^ 9 % 60) ++
            (if u % 10 ^ 9 ≠ 0 then '.' :: fracDigits 9 u else fracDigits 9 u) ++ ['s']
          = natDec (u / 10 ^ 9 % 60) ++
              ((if u % 10 ^ 9 ≠ 0 then '.' :: fracDigits 9 u else fracDigits 9 u) ++ ['s']) := by
        simp [List.append_assoc]
      rw [hsh, parseSecondsAux u 0 (by omega)]
      exact congrArg Except.ok (by omega)

/-- Every formatted duration body is a digit run followed by a nonempty
tail. -/
theorem durationBody_shape (u : Nat) :
    ∃ x t, durationBody u = natDec x ++ t ∧ t ≠ [] := by
  rw [durationBody]
  by_cases hsub : u < 1000000000
  · rw [if_pos hsub]
    by_cases h0 : u = 0
    · rw [if_pos h0]
      refine ⟨0, ['s'], ?_, by simp⟩
      rw [natDec_small (by omega)]
      rfl
    · rw [if_neg h0]
      by_cases hns : u < 1000
      · rw [if_pos hns]
        exact ⟨u, ['n', 's'], rfl, by simp⟩
      · rw [if_neg hns]
        by_cases hmicro : u < 1000000
        · rw [if_pos hmicro, fmtFrac_eq]
          simp only []
          refine ⟨u / 10 ^ 3,
            (if u % 10 ^ 3 ≠ 0 then '.' :: fracDigits 3 u else fracDigits 3 u) ++ ['µ', 's'],
            by simp [List.append_assoc], by simp⟩
        · rw [if_neg hmicro, fmtFrac_eq]
          simp only []
          refine ⟨u / 10 ^ 6,
            (if u % 10 ^ 6 ≠ 0 then '.' :: fracDigits 6 u else fracDigits 6 u) ++ ['m', 's'],
            by simp [List.append_assoc], by simp⟩
  · rw [if_neg hsub, fmtFrac_eq]
    simp only []
    by_cases h2 : u / 10 ^ 9 / 60 > 0
    · rw [if_pos h2]
      by_cases h3 : u / 10 ^ 9 / 60 / 60 > 0
      · rw [if_pos h3]
        refine ⟨u / 10 ^ 9 / 60 / 60,
          ['h'] ++ (natDec (u / 10 ^ 9 / 60 % 60) ++ ['m'])
            ++ (natDec (u / 10 ^ 9 % 60)
              ++ (if u % 10 ^ 9 ≠ 0 then '.' :: fracDigits 9 u else fracDigits 9 u) ++ ['s']),
          by simp [List.append_assoc], by simp⟩
      · rw [if_neg h3]
        refine ⟨u / 10 ^ 9 / 60 % 60,
          ['m'] ++ (natDec (u / 10 ^ 9 % 60)
            ++ (if u % 10 ^ 9 ≠ 0 then '.' :: fracDigits 9 u else fracDigits 9 u) ++ ['s']),
          by simp [List.append_assoc], by simp⟩
    · rw [if_neg h2]
      refine ⟨u / 10 ^ 9 % 60,
        (if u % 10 ^ 9 ≠ 0 then '.' :: fracDigits 9 u else fracDigits 9 u) ++ ['s'],
        by simp [List.append_assoc], by simp⟩

/-- Round trip of `Duration.String`/`time.ParseDuration`: the textual form
of any int64 duration parses back to it. -/
theorem parseDuration_durationString (d : Int)
    (hlo : -(2 ^ 63 : Int) ≤ d) (hhi : d < 2 ^ 63) :
    parseDuration (durationString d) = .ok d := by
  have hu63 : d.natAbs ≤ 2 ^ 63 := by omega
  obtain ⟨x, t, hb, htne⟩ := durationBody_shape d.natAbs
  obtain ⟨c, cs, hnd, hcd, _⟩ := natDec_cons x
  have hbody : durationBody d.natAbs = c :: (cs ++ t) := by
    rw [hb, hnd]
    rfl
  have hcm : c ≠ '-' := by
    intro h
    rw [h] at hcd
    exact absurd hcd (by decide)
  have hcp : c ≠ '+' := by
    intro h
    rw [h] at hcd
    exact absurd hcd (by decide)
  have hne0 : (c :: (cs ++ t) : Str) ≠ ['0'] := by
    intro h
    have hlen := congrArg List.length h
    simp only [List.length_cons, List.length_append, List.length_singleton,
      List.length_nil] at hlen
    have htl : t.length = 0 := by omega
    exact htne (List.length_eq_zero.mp htl)
  have hnenil : (c :: (cs ++ t) : Str) ≠ [] := by simp
  have hloop : parseDurationLoop (c :: (cs ++ t)) 0 = .ok d.natAbs := by
    rw [← hbody]
    exact durationBody_loop d.natAbs hu63
  by_cases hneg : d < 0
  · rw [durationString, if_pos hneg, hbody, parseDuration]
    simp only [if_true, if_neg hne0, if_neg hnenil, hloop]
    have hfin : -((d.natAbs : Int)) = d := by omega
    simp only [if_pos rfl, hfin]
  · rw [durationString, if_neg hneg, hbody, parseDuration]
    simp only [if_neg hcm, if_neg hcp, if_neg hne0, if_neg hnenil, hloop]
    have hcap : ¬ d.natAbs > 2 ^ 63 - 1 := by omega
    have hfin : ((d.natAbs : Int)) = d := by omega
    simp only [Bool.false_eq_true, if_false, if_neg hcap, hfin]

/-! ### The destination model: reflect.Value as a typed tree

`processField` (field.go) mutates a `reflect.Value` destination; the result
of a coercion depends only on the destination's type (every branch of the
switch overwrites the old contents, allocating fresh pointees, slices and
maps).  The model separates the type (`Ty`) from the contents (`Value`). -/

/-! ### IEEE-754 floats: the grid, ParseFloat and FormatFloat (strconv)

The repository coerces float destinations with `strconv.ParseFloat(value,
Bits())` and renders them with `strconv.FormatFloat(v, 'f', -1, Bits())`.
The model represents a float destination's contents exactly: a finite
value is the rational number its IEEE bit pattern denotes.  Parsing
evaluates the decimal literal exactly and rounds to nearest (ties to
even) onto the float32/float64 grid, with strconv's range rule past the
largest finite value; formatting emits the fewest fractional digits whose
correctly rounded decimal parses back to the value, which is strconv's
`roundShortest` criterion for the 'f' format.  Hex float literals are not
modelled (the repository never produces one and no claim touches them). -/

/-- A float destination's contents: the exact rational value of a finite
IEEE number, an infinity, or NaN. -/
inductive FloatVal where
  | finite (q : Rat)
  | inf (neg : Bool)
  | nan
deriving DecidableEq, Repr

/-- Round a rational to an integer, half to even. -/
def roundHE (r : Rat) : Int :=
  let n := ⌊r⌋
  let f := r - n
  if f < (1 : Rat) / 2 then n
  else if (1 : Rat) / 2 < f then n + 1
  else if n % 2 = 0 then n else n + 1

/-- Mantissa bits of the grid `strconv` uses for the bit size: float32 for
32, float64 for everything else (ParseFloat's own convention). -/
def floatMantBits (bits : Nat) : Nat := if bits = 32 then 24 else 53

/-- Exponent of the smallest subnormal step. -/
def floatMinExp (bits : Nat) : Int := if bits = 32 then -149 else -1074

/-- The largest finite value of the grid. -/
def floatMaxFinite (bits : Nat) : Rat :=
  if bits = 32 then ((2 : Rat) ^ (24 : Nat) - 1) * 2 ^ (104 : Nat)
  else ((2 : Rat) ^ (53 : Nat) - 1) * 2 ^ (971 : Nat)

/-- The binade of a positive rational: the largest `e` with `2 ^ e ≤ r`. -/
def binadeExp (r : Rat) : Int :=
  if 1 ≤ r then (Nat.log2 ⌊r⌋.toNat : Int)
  else
    let l : Nat := Nat.log2 ⌊1 / r⌋.toNat
    if r = (2 : Rat) ^ (-(l : Int)) then -(l : Int) else -(l : Int) - 1

/-- Round-to-nearest-even onto the IEEE grid.  A value rounding past the
largest finite number is out of range (ParseFloat returns ±Inf with
ErrRange, which `processField` surfaces as an error); gradual underflow
ends at zero without an error. -/
def roundFloat (bits : Nat) (r : Rat) : Except String Rat :=
  if r = 0 then .ok 0
  else
    let a := |r|
    let e := binadeExp a
    let uexp : Int := max (e - ((floatMantBits bits : Int) - 1)) (floatMinExp bits)
    let n := roundHE (a / (2 : Rat) ^ uexp)
    let v : Rat := (n : Rat) * (2 : Rat) ^ uexp
    if v > floatMaxFinite bits then .error "value out of range"
    else .ok (if r < 0 then -v else v)

/-- `strconv.special`: Inf/Infinity with an optional sign, NaN without
one, all case-insensitive. -/
def parseFloatSpecial (s : Str) : Option FloatVal :=
  match s with
  | [] => none
  | c :: rest =>
    if c = '+' ∨ c = '-' then
      let ls := rest.map lowerC
      if ls = "inf".toList ∨ ls = "infinity".toList then some (.inf (c = '-')) else none
    else
      let ls := (c :: rest).map lowerC
      if ls = "inf".toList ∨ ls = "infinity".toList then some (.inf false)
      else if ls = "nan".toList then some .nan
      else none

/-- Exponent suffix of a decimal float literal: empty, or e/E with an
optional sign and a non-empty digit run. -/
def parseExpPart (s : Str) : Option Int :=
  match s with
  | [] => some 0
  | c :: rest =>
    if c = 'e' ∨ c = 'E' then
      match rest with
      | [] => none
      | c1 :: rest1 =>
        let (eneg, ds) : Bool × Str :=
          if c1 = '+' then (false, rest1)
          else if c1 = '-' then (true, rest1)
          else (false, c1 :: rest1)
        if ds = [] ∨ ¬ ds.all isDigitC then none
        else some (if eneg then -(decVal ds : Int) else (decVal ds : Int))
    else none

/-- The decimal grammar of ParseFloat, evaluated exactly:
`[sign] digits [. digits] [e|E [sign] digits]` with at least one mantissa
digit. -/
def parseFloatDec (s : Str) : Option Rat :=
  match s with
  | [] => none
  | c0 :: rest0 =>
    let (neg, s1) : Bool × Str :=
      if c0 = '+' then (false, rest0)
      else if c0 = '-' then (true, rest0)
      else (false, c0 :: rest0)
    let ds := s1.takeWhile isDigitC
    let r1 := s1.dropWhile isDigitC
    let (fs, r2) : Str × Str :=
      match r1 with
      | '.' :: r1' => (r1'.takeWhile isDigitC, r1'.dropWhile isDigitC)
      | _ => ([], r1)
    if ds = [] ∧ fs = [] then none
    else
      match parseExpPart r2 with
      | none => none
      | some ex =>
        let mag : Rat := (decVal (ds ++ fs) : Rat) / (10 : Rat) ^ fs.length * (10 : Rat) ^ ex
        some (if neg then -mag else mag)

/-- `strconv.ParseFloat(value, bitSize)`: special literals, otherwise the
exact decimal value rounded onto the grid.  Underscores are accepted in
the positions `underscoreOK` allows, as in the integer parsers. -/
def parseFloatVal (s : Str) (bits : Nat) : Except String FloatVal :=
  if s = [] then .error "invalid syntax"
  else
    match parseFloatSpecial s with
    | some fv => .ok fv
    | none =>
      if s.contains '_' ∧ ¬ underscoreOK s then .error "invalid syntax"
      else
        match parseFloatDec (if s.contains '_' then s.filter (fun c => c ≠ '_') else s) with
        | none => .error "invalid syntax"
        | some r =>
          match roundFloat bits r with
          | .error e => .error e
          | .ok q => .ok (.finite q)

/-- The digits of `n` with `p` of them after the decimal point. -/
def renderPos (n p : Nat) : Str :=
  if p = 0 then natDec n
  else natDec (n / 10 ^ p) ++ '.' :: padDigits p (n % 10 ^ p)

/-- The 'f'-format rendering of `q` at `p` fractional digits, correctly
rounded (ties to even). -/
def renderDec (q : Rat) (p : Nat) : Str :=
  (if q < 0 then ['-'] else []) ++ renderPos (roundHE (|q| * (10 : Rat) ^ p)).toNat p

/-- The precision search of `FormatFloat(v, 'f', -1)`: emit the fewest
fractional digits whose correctly rounded decimal parses back to the
value.  1074 digits always suffice: every finite double is an integer
multiple of 2 ^ -1074, whose decimal expansion is exact there. -/
def shortestRender (bits : Nat) (q : Rat) : Nat → Nat → Str
  | p, 0 => renderDec q p
  | p, fuel + 1 =>
    let cand := renderDec q p
    match parseFloatVal cand bits with
    | .ok (.finite q') => if q' = q then cand else shortestRender bits q (p + 1) fuel
    | _ => shortestRender bits q (p + 1) fuel

/-- `strconv.FormatFloat(v, 'f', -1, bitSize)` on the model. -/
def formatFloat (bits : Nat) : FloatVal → Str
  | .nan => "NaN".toList
  | .inf false => "+Inf".toList
  | .inf true => "-Inf".toList
  | .finite q => shortestRender bits q 0 1074

/-! ### Float round-trip lemmas -/

theorem roundHE_intCast (m : Int) : roundHE (m : Rat) = m := by
  rw [roundHE]
  norm_num

theorem floatMinExp_ge (bits : Nat) : -1074 ≤ floatMinExp bits := by
  rw [floatMinExp]
  split <;> omega

/-- Every value the grid rounding produces is an integer multiple of
2 ^ -1074. -/
theorem roundFloat_shape (bits : Nat) (r q : Rat) (h : roundFloat bits r = .ok q) :
    ∃ m : Int, (m : Rat) = q * (2 : Rat) ^ (1074 : Nat) := by
  rw [roundFloat] at h
  by_cases hr : r = 0
  · rw [if_pos hr] at h
    injection h with h
    exact ⟨0, by rw [← h]; simp⟩
  · rw [if_neg hr] at h
    set uexp : Int := max (binadeExp |r| - ((floatMantBits bits : Int) - 1))
      (floatMinExp bits) with huexp
    set n : Int := roundHE (|r| / (2 : Rat) ^ uexp) with hn
    by_cases hov : (n : Rat) * (2 : Rat) ^ uexp > floatMaxFinite bits
    · rw [if_pos hov] at h
      cases h
    · rw [if_neg hov] at h
      injection h with h
      have hpos : (0 : Int) ≤ uexp + 1074 := by
        have := floatMinExp_ge bits
        have : floatMinExp bits ≤ uexp := le_max_right _ _
        omega
      refine ⟨(if r < 0 then -n else n) * 2 ^ (uexp + 1074).toNat, ?_⟩
      have h2 : ((2 : Rat) ^ (uexp + 1074).toNat) = (2 : Rat) ^ ((uexp + 1074) : Int) := by
        rw [← zpow_natCast]
        congr 1
        omega
      have h3 : (2 : Rat) ^ ((uexp + 1074) : Int) = (2 : Rat) ^ uexp * (2 : Rat) ^ (1074 : Nat) := by
        rw [zpow_add₀ (by norm_num : (2 : Rat) ≠ 0)]
        norm_cast
      rw [← h]
      push_cast
      rw [h2, h3]
      by_cases hneg : r < 0 <;> simp [hneg] <;> ring

theorem ten_pow_of_two_pow (q : Rat) (m : Int) (hm : (m : Rat) = q * (2 : Rat) ^ (1074 : Nat)) :
    ((m * 5 ^ (1074 : Nat) : Int) : Rat) = q * (10 : Rat) ^ (1074 : Nat) := by
  push_cast
  rw [hm]
  have : ((10 : Rat) ^ (1074 : Nat)) = (2 : Rat) ^ (1074 : Nat) * (5 : Rat) ^ (1074 : Nat) := by
    rw [← mul_pow]
    norm_num
  rw [this]
  ring

theorem lowerC_digit {c : Char} (h : isDigitC c = true) : lowerC c = c := by
  simp only [isDigitC, Bool.and_eq_true, decide_eq_true_eq] at h
  have hx : c.toNat % 128 ||| 32 = c.toNat := by
    obtain ⟨h1, h2⟩ := h
    interval_cases h3 : c.toNat <;> rfl
  rw [lowerC, hx, Char.ofNat_toNat]

theorem digit_ne_of_toNat {c d : Char} (h : isDigitC c = true) (hd : 64 ≤ d.toNat) :
    c ≠ d := by
  simp only [isDigitC, Bool.and_eq_true, decide_eq_true_eq] at h
  intro hc
  subst hc
  omega

/-- A rendered number is never one of the special float literals. -/
theorem parseFloatSpecial_render (q : Rat) (p : Nat) :
    parseFloatSpecial (renderDec q p) = none := by
  have hshape : ∃ d t, renderPos (roundHE (|q| * (10 : Rat) ^ p)).toNat p = d :: t ∧
      isDigitC d = true := by
    rw [renderPos]
    split
    · obtain ⟨d, t, hd⟩ := List.exists_cons_of_ne_nil
        (natDec_ne_nil (roundHE (|q| * (10 : Rat) ^ p)).toNat)
      exact ⟨d, t, hd, natDec_all_digits _ d (by rw [hd]; simp)⟩
    · obtain ⟨d, t, hd⟩ := List.exists_cons_of_ne_nil
        (natDec_ne_nil ((roundHE (|q| * (10 : Rat) ^ p)).toNat / 10 ^ p))
      refine ⟨d, t ++ '.' :: padDigits p ((roundHE (|q| * (10 : Rat) ^ p)).toNat % 10 ^ p),
        by rw [hd]; simp, natDec_all_digits _ d (by rw [hd]; simp)⟩
  obtain ⟨d, t, hd, hdig⟩ := hshape
  have hdi : lowerC d ≠ 'i' := by
    rw [lowerC_digit hdig]
    exact digit_ne_of_toNat hdig (by decide)
  have hdn : lowerC d ≠ 'n' := by
    rw [lowerC_digit hdig]
    exact digit_ne_of_toNat hdig (by decide)
  rw [renderDec, hd]
  by_cases hq : q < 0
  · rw [if_pos hq, List.singleton_append, parseFloatSpecial]
    rw [if_pos (by simp)]
    rw [if_neg ?hninf]
    case hninf =>
      simp only [List.map_cons]
      rintro (h | h) <;> (injection h with h1 _; exact hdi h1)
  · rw [if_neg hq, List.nil_append, parseFloatSpecial]
    rw [if_neg (by rintro (h | h) <;> (subst h; simp [isDigitC] at hdig))]
    rw [if_neg ?hninf2, if_neg ?hnnan]
    case hninf2 =>
      simp only [List.map_cons]
      rintro (h | h) <;> (injection h with h1 _; exact hdi h1)
    case hnnan =>
      simp only [List.map_cons]
      intro h
      injection h with h1 _
      exact hdn h1

/-- A rendered number contains no underscore. -/
theorem renderDec_no_underscore (q : Rat) (p : Nat) :
    ∀ c ∈ renderDec q p, c ≠ '_' := by
  intro c hc
  rw [renderDec] at hc
  rcases List.mem_append.mp hc with h | h
  · split at h <;> simp at h
    subst h
    decide
  · rw [renderPos] at h
    split at h
    · exact isDigit_ne_underscore (natDec_all_digits _ c h)
    · rcases List.mem_append.mp h with h1 | h1
      · exact isDigit_ne_underscore (natDec_all_digits _ c h1)
      · rcases List.mem_cons.mp h1 with h2 | h2
        · subst h2; decide
        · exact isDigit_ne_underscore (padDigits_digits _ _ c h2)

theorem parseFloatDec_digits (u v : Str) (hu : ∀ c ∈ u, isDigitC c = true) (hune : u ≠ [])
    (hv : ∀ c ∈ v, isDigitC c = true) :
    parseFloatDec (u ++ '.' :: v) =
      some ((decVal (u ++ v) : Rat) / (10 : Rat) ^ v.length) := by
  obtain ⟨d, t, hd⟩ := List.exists_cons_of_ne_nil hune
  have hdd : isDigitC d = true := hu d (by rw [hd]; simp)
  have hdsign : d ≠ '+' ∧ d ≠ '-' := by
    constructor <;> (intro h; subst h; simp [isDigitC] at hdd)
  have hstop : headStopsRun isDigitC ('.' :: v) := by
    show isDigitC '.' = false
    decide
  have hscan1 := takeWhile_append_run isDigitC u ('.' :: v) hu hstop
  have hscan2 := takeWhile_append_run isDigitC v [] hv trivial
  rw [List.append_nil] at hscan2
  rw [hd, List.cons_append, parseFloatDec]
  rw [if_neg (by simp [hdsign.1]), if_neg (by simp [hdsign.2])]
  rw [← List.cons_append, ← hd]
  simp only [hscan1.1, hscan1.2, hscan2.1, hscan2.2]
  rw [if_neg (by simp [hune])]
  rw [show parseExpPart [] = some 0 from rfl]
  simp

theorem parseFloatDec_digits_neg (u v : Str) (hu : ∀ c ∈ u, isDigitC c = true) (hune : u ≠ [])
    (hv : ∀ c ∈ v, isDigitC c = true) :
    parseFloatDec ('-' :: (u ++ '.' :: v)) =
      some (-((decVal (u ++ v) : Rat) / (10 : Rat) ^ v.length)) := by
  have hstop : headStopsRun isDigitC ('.' :: v) := by
    show isDigitC '.' = false
    decide
  have hscan1 := takeWhile_append_run isDigitC u ('.' :: v) hu hstop
  have hscan2 := takeWhile_append_run isDigitC v [] hv trivial
  rw [List.append_nil] at hscan2
  rw [parseFloatDec]
  rw [if_neg (by decide), if_pos rfl]
  simp only [hscan1.1, hscan1.2, hscan2.1, hscan2.2]
  rw [if_neg (by simp [hune])]
  rw [show parseExpPart [] = some 0 from rfl]
  simp

/-- Parsing the exact rendering at `p ≥ 1` fractional digits recovers the
exact rational. -/
theorem parseFloatDec_render (q : Rat) (p : Nat) (M : Int) (hp : 1 ≤ p)
    (hM : (M : Rat) = q * (10 : Rat) ^ p) :
    parseFloatDec (renderDec q p) = some q := by
  have hten : (0 : Rat) < (10 : Rat) ^ p := by positivity
  have habs : |q| * (10 : Rat) ^ p = ((M.natAbs : Nat) : Rat) := by
    rw [Int.cast_natAbs, Int.cast_abs, hM, abs_mul, abs_of_pos hten]
  set n : Nat := M.natAbs with hndef
  have hround : (roundHE (|q| * (10 : Rat) ^ p)).toNat = n := by
    rw [habs, show ((n : Nat) : Rat) = ((n : Int) : Rat) by push_cast; rfl, roundHE_intCast]
    simp
  have hnq : (n : Rat) = |q| * (10 : Rat) ^ p := habs.symm
  have hbody : renderPos n p = natDec (n / 10 ^ p) ++ '.' :: padDigits p (n % 10 ^ p) := by
    rw [renderPos, if_neg (show ¬ p = 0 by omega)]
  have hval : ((decVal (natDec (n / 10 ^ p) ++ padDigits p (n % 10 ^ p)) : Nat) : Rat) /
      (10 : Rat) ^ (padDigits p (n % 10 ^ p)).length = |q| := by
    rw [decVal_append, decVal_natDec, padDigits_decVal, padDigits_length,
      Nat.mod_mod_of_dvd n (dvd_refl (10 ^ p)), Nat.div_add_mod' n (10 ^ p)]
    rw [div_eq_iff (ne_of_gt hten)]
    exact hnq
  by_cases hq : q < 0
  · rw [renderDec, if_pos hq, hround, hbody, List.singleton_append,
      parseFloatDec_digits_neg _ _ (natDec_all_digits _) (natDec_ne_nil _) (padDigits_digits _ _)]
    rw [hval]
    simp [abs_of_neg hq]
  · rw [renderDec, if_neg hq, hround, hbody, List.nil_append,
      parseFloatDec_digits _ _ (natDec_all_digits _) (natDec_ne_nil _) (padDigits_digits _ _)]
    rw [hval]
    simp [abs_of_nonneg (le_of_not_lt hq)]

/-- Parsing the exact rendering gives back a grid point unchanged. -/
theorem parseFloatVal_render (bits : Nat) (q : Rat) (p : Nat) (M : Int) (hp : 1 ≤ p)
    (hM : (M : Rat) = q * (10 : Rat) ^ p) (hfix : roundFloat bits q = .ok q) :
    parseFloatVal (renderDec q p) bits = .ok (.finite q) := by
  have hne : renderDec q p ≠ [] := by
    rw [renderDec, renderPos]
    by_cases hq : q < 0 <;> simp [hq]
    rw [if_neg (by omega)]
    simp [natDec_ne_nil]
  have hcontains : (renderDec q p).contains '_' = false := by
    by_contra h
    have h1 : (renderDec q p).contains '_' = true := by
      cases h2 : (renderDec q p).contains '_'
      · exact absurd h2 h
      · rfl
    have h2 : '_' ∈ renderDec q p := by
      simpa using h1
    exact renderDec_no_underscore q p '_' h2 rfl
  rw [parseFloatVal, if_neg (by simp [hne]), parseFloatSpecial_render q p]
  simp only [hcontains, Bool.false_eq_true, false_and, if_false, ite_false]
  simp only [parseFloatDec_render q p M hp hM, hfix]

/-- The precision search returns a string that parses back, as soon as one
of the probed precisions does. -/
theorem shortestRender_ok (bits : Nat) (q : Rat) :
    ∀ (fuel p : Nat), parseFloatVal (renderDec q (p + fuel)) bits = .ok (.finite q) →
    parseFloatVal (shortestRender bits q p fuel) bits = .ok (.finite q) := by
  intro fuel
  induction fuel with
  | zero => intro p h; exact h
  | succ fuel ih =>
    intro p h
    rw [shortestRender]
    have hnext : parseFloatVal (renderDec q (p + 1 + fuel)) bits = .ok (.finite q) := by
      rw [show p + 1 + fuel = p + (fuel + 1) by omega]
      exact h
    match hparse : parseFloatVal (renderDec q p) bits with
    | .ok (.finite q') =>
      simp only [hparse]
      by_cases hq : q' = q
      · rw [if_pos hq, hparse, hq]
      · rw [if_neg hq]
        exact ih (p + 1) hnext
    | .ok (.inf b) =>
      simp only [hparse]
      exact ih (p + 1) hnext
    | .ok .nan =>
      simp only [hparse]
      exact ih (p + 1) hnext
    | .error e =>
      simp only [hparse]
      exact ih (p + 1) hnext

/-- Round trip of FormatFloat/ParseFloat on the model: the 'f'-format
shortest rendering of a grid value parses back to it. -/
theorem parseFloat_formatFloat (bits : Nat) (q : Rat) (hfix : roundFloat bits q = .ok q) :
    parseFloatVal (formatFloat bits (.finite q)) bits = .ok (.finite q) := by
  obtain ⟨m, hm⟩ := roundFloat_shape bits q q hfix
  have hM := ten_pow_of_two_pow q m hm
  rw [formatFloat]
  exact shortestRender_ok bits q 1074 0
    (parseFloatVal_render bits q 1074 (m * 5 ^ (1074 : Nat)) (by omega) hM hfix)

inductive Ty where
  | tString : Ty
  | tBool : Ty
  | tInt (bits : Nat) : Ty -- int, int8..int64; Bits() of the Go type
  | tDuration : Ty -- time.Duration, the special-cased int64
  | tUint (bits : Nat) : Ty
  | tFloat (bits : Nat) : Ty -- float32/float64; Bits() of the Go type
  | tBytes : Ty -- []byte, the special-cased byte slice
  | tSlice (elem : Ty) : Ty
  | tMap (key val : Ty) : Ty
  | tPtr (elem : Ty) : Ty
  | tStruct (hasDecoder : Bool) : Ty -- opaque struct; flag: implements a decode hook
deriving DecidableEq, Repr

theorem Ty.sizeOf_pos (t : Ty) : 0 < sizeOf t := by
  cases t <;> simp_arith

inductive Value where
  | str (s : Str) : Value
  | bool (b : Bool) : Value
  | int (bits : Nat) (v : Int) : Value
  | duration (v : Int) : Value
  | uint (bits : Nat) (v : Nat) : Value
  | float (bits : Nat) (v : FloatVal) : Value -- exact IEEE contents
  | bytes (b : Option Str) : Value -- none models a nil []byte
  | slice (elem : Ty) (elems : Option (List Value)) : Value -- none models nil
  | map (key val : Ty) (entries : Option (List (Value × Value))) : Value
  | ptr (elem : Ty) (inner : Option Value) : Value
  | structV (hasDecoder : Bool) (decoded : Option Str) : Value
    -- opaque struct contents: `decoded` records the argument of the last
    -- decode-hook invocation (none if never invoked / zero value)

/-- The runtime type of a modelled value. -/
def tyOf : Value → Ty
  | .str _ => .tString
  | .bool _ => .tBool
  | .int bits _ => .tInt bits
  | .duration _ => .tDuration
  | .uint bits _ => .tUint bits
  | .float bits _ => .tFloat bits
  | .bytes _ => .tBytes
  | .slice e _ => .tSlice e
  | .map k v _ => .tMap k v
  | .ptr e _ => .tPtr e
  | .structV h _ => .tStruct h

/-- The zero value of a type (what `reflect.New(T).Elem()` holds). -/
def zeroOf : Ty → Value
  | .tString => .str []
  | .tBool => .bool false
  | .tInt bits => .int bits 0
  | .tDuration => .duration 0
  | .tUint bits => .uint bits 0
  | .tFloat bits => .float bits (.finite 0)
  | .tBytes => .bytes none
  | .tSlice e => .slice e none
  | .tMap k v => .map k v none
  | .tPtr e => .ptr e none
  | .tStruct h => .structV h none

/-- `reflect.Value.IsZero`: nil for slices/maps/pointers, the zero scalar
otherwise; for the opaque struct, whether the decode hook ever ran. -/
def isZero : Value → Bool
  | .str s => s.isEmpty
  | .bool b => b = false
  | .int _ v => v = 0
  | .duration v => v = 0
  | .uint _ v => v = 0
  | .float _ v => v = FloatVal.finite 0 -- v.Float() == 0; NaN and ±Inf are non-zero
  | .bytes b => b.isNone
  | .slice _ e => e.isNone
  | .map _ _ e => e.isNone
  | .ptr _ i => i.isNone
  | .structV _ d => d.isNone

mutual
/-- Structural equality on modelled values (Go's `==` on comparable values
and deep equality on slice/map contents). -/
def beqV : Value → Value → Bool
  | .str a, .str b => a = b
  | .bool a, .bool b => a = b
  | .int ab av, .int bb bv => ab = bb ∧ av = bv
  | .duration a, .duration b => a = b
  | .uint ab av, .uint bb bv => ab = bb ∧ av = bv
  | .float ab av, .float bb bv => ab = bb ∧ av = bv
  | .bytes a, .bytes b => a = b
  | .slice ae an, .slice be bn =>
    decide (ae = be) && (match an, bn with
      | none, none => true
      | some al, some bl => beqL al bl
      | _, _ => false)
  | .map ak av an, .map bk bv bn =>
    decide (ak = bk) && decide (av = bv) && (match an, bn with
      | none, none => true
      | some al, some bl => beqE al bl
      | _, _ => false)
  | .ptr ae an, .ptr be bn =>
    decide (ae = be) && (match an, bn with
      | none, none => true
      | some a, some b => beqV a b
      | _, _ => false)
  | .structV ah ad, .structV bh bd => ah = bh ∧ ad = bd
  | _, _ => false

def beqL : List Value → List Value → Bool
  | [], [] => true
  | a :: as', b :: bs' => beqV a b && beqL as' bs'
  | _, _ => false

def beqE : List (Value × Value) → List (Value × Value) → Bool
  | [], [] => true
  | (ak, av) :: as', (bk, bv) :: bs' => beqV ak bk && beqV av bv && beqE as' bs'
  | _, _ => false
end

mutual
theorem beqV_iff : ∀ a b : Value, beqV a b = true ↔ a = b
  | .str a, .str b => by simp [beqV]
  | .bool a, .bool b => by simp [beqV]
  | .int ab av, .int bb bv => by simp [beqV]
  | .duration a, .duration b => by simp [beqV]
  | .uint ab av, .uint bb bv => by simp [beqV]
  | .float ab av, .float bb bv => by simp [beqV]
  | .bytes a, .bytes b => by simp [beqV]
  | .slice ae an, .slice be bn => by
    rcases an with _ | al <;> rcases bn with _ | bl
    · simp [beqV]
    · simp [beqV]
    · simp [beqV]
    · simp [beqV, beqL_iff al bl]
  | .map ak av an, .map bk bv bn => by
    rcases an with _ | al <;> rcases bn with _ | bl
    · simp [beqV]
    · simp [beqV]
    · simp [beqV]
    · simp [beqV, beqE_iff al bl]
      tauto
  | .ptr ae an, .ptr be bn => by
    rcases an with _ | a <;> rcases bn with _ | b
    · simp [beqV]
    · simp [beqV]
    · simp [beqV]
    · simp [beqV, beqV_iff a b]
  | .structV ah ad, .structV bh bd => by simp [beqV]
  | .str _, .bool _ => by simp [beqV]
  | .str _, .int _ _ => by simp [beqV]
  | .str _, .duration _ => by simp [beqV]
  | .str _, .uint _ _ => by simp [beqV]
  | .str _, .bytes _ => by simp [beqV]
  | .str _, .slice _ _ => by simp [beqV]
  | .str _, .map _ _ _ => by simp [beqV]
  | .str _, .ptr _ _ => by simp [beqV]
  | .str _, .structV _ _ => by simp [beqV]
  | .bool _, .str _ => by simp [beqV]
  | .bool _, .int _ _ => by simp [beqV]
  | .bool _, .duration _ => by simp [beqV]
  | .bool _, .uint _ _ => by simp [beqV]
  | .bool _, .bytes _ => by simp [beqV]
  | .bool _, .slice _ _ => by simp [beqV]
  | .bool _, .map _ _ _ => by simp [beqV]
  | .bool _, .ptr _ _ => by simp [beqV]
  | .bool _, .structV _ _ => by simp [beqV]
  | .int _ _, .str _ => by simp [beqV]
  | .int _ _, .bool _ => by simp [beqV]
  | .int _ _, .duration _ => by simp [beqV]
  | .int _ _, .uint _ _ => by simp [beqV]
  | .int _ _, .bytes _ => by simp [beqV]
  | .int _ _, .slice _ _ => by simp [beqV]
  | .int _ _, .map _ _ _ => by simp [beqV]
  | .int _ _, .ptr _ _ => by simp [beqV]
  | .int _ _, .structV _ _ => by simp [beqV]
  | .duration _, .str _ => by simp [beqV]
  | .duration _, .bool _ => by simp [beqV]
  | .duration _, .int _ _ => by simp [beqV]
  | .duration _, .uint _ _ => by simp [beqV]
  | .duration _, .bytes _ => by simp [beqV]
  | .duration _, .slice _ _ => by simp [beqV]
  | .duration _, .map _ _ _ => by simp [beqV]
  | .duration _, .ptr _ _ => by simp [beqV]
  | .duration _, .structV _ _ => by simp [beqV]
  | .uint _ _, .str _ => by simp [beqV]
  | .uint _ _, .bool _ => by simp [beqV]
  | .uint _ _, .int _ _ => by simp [beqV]
  | .uint _ _, .duration _ => by simp [beqV]
  | .uint _ _, .bytes _ => by simp [beqV]
  | .uint _ _, .slice _ _ => by simp [beqV]
  | .uint _ _, .map _ _ _ => by simp [beqV]
  | .uint _ _, .ptr _ _ => by simp [beqV]
  | .uint _ _, .structV _ _ => by simp [beqV]
  | .bytes _, .str _ => by simp [beqV]
  | .bytes _, .bool _ => by simp [beqV]
  | .bytes _, .int _ _ => by simp [beqV]
  | .bytes _, .duration _ => by simp [beqV]
  | .bytes _, .uint _ _ => by simp [beqV]
  | .bytes _, .slice _ _ => by simp [beqV]
  | .bytes _, .map _ _ _ => by simp [beqV]
  | .bytes _, .ptr _ _ => by simp [beqV]
  | .bytes _, .structV _ _ => by simp [beqV]
  | .slice _ _, .str _ => by simp [beqV]
  | .slice _ _, .bool _ => by simp [beqV]
  | .slice _ _, .int _ _ => by simp [beqV]
  | .slice _ _, .duration _ => by simp [beqV]
  | .slice _ _, .uint _ _ => by simp [beqV]
  | .slice _ _, .bytes _ => by simp [beqV]
  | .slice _ _, .map _ _ _ => by simp [beqV]
  | .slice _ _, .ptr _ _ => by simp [beqV]
  | .slice _ _, .structV _ _ => by simp [beqV]
  | .map _ _ _, .str _ => by simp [beqV]
  | .map _ _ _, .bool _ => by simp [beqV]
  | .map _ _ _, .int _ _ => by simp [beqV]
  | .map _ _ _, .duration _ => by simp [beqV]
  | .map _ _ _, .uint _ _ => by simp [beqV]
  | .map _ _ _, .bytes _ => by simp [beqV]
  | .map _ _ _, .slice _ _ => by simp [beqV]
  | .map _ _ _, .ptr _ _ => by simp [beqV]
  | .map _ _ _, .structV _ _ => by simp [beqV]
  | .ptr _ _, .str _ => by simp [beqV]
  | .ptr _ _, .bool _ => by simp [beqV]
  | .ptr _ _, .int _ _ => by simp [beqV]
  | .ptr _ _, .duration _ => by simp [beqV]
  | .ptr _ _, .uint _ _ => by simp [beqV]
  | .ptr _ _, .bytes _ => by simp [beqV]
  | .ptr _ _, .slice _ _ => by simp [beqV]
  | .ptr _ _, .map _ _ _ => by simp [beqV]
  | .ptr _ _, .structV _ _ => by simp [beqV]
  | .structV _ _, .str _ => by simp [beqV]
  | .structV _ _, .bool _ => by simp [beqV]
  | .structV _ _, .int _ _ => by simp [beqV]
  | .structV _ _, .duration _ => by simp [beqV]
  | .structV _ _, .uint _ _ => by simp [beqV]
  | .structV _ _, .bytes _ => by simp [beqV]
  | .structV _ _, .slice _ _ => by simp [beqV]
  | .structV _ _, .map _ _ _ => by simp [beqV]
  | .structV _ _, .ptr _ _ => by simp [beqV]
  | .float _ _, .str _ => by simp [beqV]
  | .str _, .float _ _ => by simp [beqV]
  | .float _ _, .bool _ => by simp [beqV]
  | .bool _, .float _ _ => by simp [beqV]
  | .float _ _, .int _ _ => by simp [beqV]
  | .int _ _, .float _ _ => by simp [beqV]
  | .float _ _, .duration _ => by simp [beqV]
  | .duration _, .float _ _ => by simp [beqV]
  | .float _ _, .uint _ _ => by simp [beqV]
  | .uint _ _, .float _ _ => by simp [beqV]
  | .float _ _, .bytes _ => by simp [beqV]
  | .bytes _, .float _ _ => by simp [beqV]
  | .float _ _, .slice _ _ => by simp [beqV]
  | .slice _ _, .float _ _ => by simp [beqV]
  | .float _ _, .map _ _ _ => by simp [beqV]
  | .map _ _ _, .float _ _ => by simp [beqV]
  | .float _ _, .ptr _ _ => by simp [beqV]
  | .ptr _ _, .float _ _ => by simp [beqV]
  | .float _ _, .structV _ _ => by simp [beqV]
  | .structV _ _, .float _ _ => by simp [beqV]

theorem beqL_iff : ∀ a b : List Value, beqL a b = true ↔ a = b
  | [], [] => by simp [beqL]
  | a :: as', b :: bs' => by
    rw [beqL]
    simp [beqV_iff a b, beqL_iff as' bs']
  | [], _ :: _ => by simp [beqL]
  | _ :: _, [] => by simp [beqL]

theorem beqE_iff : ∀ a b : List (Value × Value), beqE a b = true ↔ a = b
  | [], [] => by simp [beqE]
  | (ak, av) :: as', (bk, bv) :: bs' => by
    rw [beqE]
    simp [beqV_iff ak bk, beqV_iff av bv, beqE_iff as' bs']
    try tauto
  | [], _ :: _ => by simp [beqE]
  | _ :: _, [] => by simp [beqE]
end

instance : DecidableEq Value := fun a b =>
  decidable_of_iff (beqV a b = true) (beqV_iff a b)

/-- Go type strings, as used in the "unsupported type" error message. -/
def tyString : Ty → String
  | .tString => "string"
  | .tBool => "bool"
  | .tInt _ => "int"
  | .tDuration => "time.Duration"
  | .tUint _ => "uint"
  | .tFloat bits => if bits = 32 then "float32" else "float64"
  | .tBytes => "[]uint8"
  | .tSlice _ => "slice"
  | .tMap _ _ => "map"
  | .tPtr e => "*" ++ tyString e -- Type().String() of a pointer pointee
  | .tStruct _ => "struct"

/-- `unicode.IsSpace`: the Unicode White_Space code points. -/
def goIsSpace (c : Char) : Bool :=
  c.toNat = 0x20 ∨ (0x9 ≤ c.toNat ∧ c.toNat ≤ 0xD) ∨ c.toNat = 0x85 ∨ c.toNat = 0xA0 ∨
  c.toNat = 0x1680 ∨ (0x2000 ≤ c.toNat ∧ c.toNat ≤ 0x200A) ∨ c.toNat = 0x2028 ∨
  c.toNat = 0x2029 ∨ c.toNat = 0x202F ∨ c.toNat = 0x205F ∨ c.toNat = 0x3000

/-- `strings.TrimSpace`. -/
def trimSpace (s : Str) : Str :=
  ((s.dropWhile goIsSpace).reverse.dropWhile goIsSpace).reverse

/-- `strings.Split(s, sep)` for a one-character separator: never returns an
empty list (splitting the empty string yields one empty field). -/
def splitOnChar (sep : Char) : Str → List Str
  | [] => [[]]
  | c :: rest =>
    if c = sep then [] :: splitOnChar sep rest
    else
      match splitOnChar sep rest with
      | [] => [[c]] -- unreachable: splitOnChar never returns []
      | w :: ws => (c :: w) :: ws

/-- `strings.SplitN(s, sep, 2)` for a one-character separator: the part
before the first separator and, if present, the rest. -/
def splitFirst (sep : Char) : Str → Str × Option Str
  | [] => ([], none)
  | c :: rest =>
    if c = sep then ([], some rest)
    else
      match splitFirst sep rest with
      | (w, r) => (c :: w, r)

/-- `strings.Join` with a one-character separator. -/
def joinWith (sep : Char) : List Str → Str
  | [] => []
  | [x] => x
  | x :: rest => x ++ sep :: joinWith sep rest

/-- `reflect.Value.SetMapIndex` on the entries list: overwrite the value of
an existing key in place, otherwise append the binding. -/
def mapInsert (k v : Value) : List (Value × Value) → List (Value × Value)
  | [] => [(k, v)]
  | (k', v') :: rest =>
    if k' = k then (k', v) :: rest
    else (k', v') :: mapInsert k v rest

mutual
/-- `processField` (field.go): coerce a raw string into a destination of
type `t`.  The function first handles pointers — an uninitialized pointer
is allocated and the destination dereferenced exactly one level — and then
runs the kind switch (`coerceBase`) on the pointee.  Every branch
overwrites the destination, so the result depends only on its type. -/
def coerceInto : Ty → Str → Except String Value
  | .tPtr e, value =>
    match coerceBase e value with
    | .error err => .error err
    | .ok v => .ok (.ptr e (some v))
  | t, value => coerceBase t value
termination_by t _ => (sizeOf t, 1, 0)
decreasing_by
  all_goals simp_wf
  · apply Prod.Lex.left
    omega
  · apply Prod.Lex.right
    apply Prod.Lex.left
    omega

/-- The kind switch of `processField` after the pointer step.  A pointee
that is itself a pointer has no case and falls into the default branch, as
do struct destinations. -/
def coerceBase : Ty → Str → Except String Value
  | .tString, value => .ok (.str value)
  | .tBool, value =>
    match parseBool value with
    | .error e => .error ("error parsing bool: " ++ e)
    | .ok b => .ok (.bool b)
  | .tDuration, value =>
    -- special case for time.Duration inside the signed-integer branch
    match parseDuration value with
    | .error e => .error ("error parsing int: " ++ e)
    | .ok d => .ok (.duration d)
  | .tInt bits, value =>
    match parseInt value 0 bits with
    | .error e => .error ("error parsing int: " ++ e)
    | .ok v => .ok (.int bits v)
  | .tUint bits, value =>
    match parseUint value 0 bits with
    | .error e => .error ("error parsing uint: " ++ e)
    | .ok v => .ok (.uint bits v)
  | .tFloat bits, value =>
    match parseFloatVal value bits with
    | .error e => .error ("error parsing float: " ++ e)
    | .ok fv => .ok (.float bits fv)
  | .tBytes, value => .ok (.bytes (some value)) -- special case for []byte
  | .tSlice elem, value =>
    match coerceSliceElems elem (splitOnChar ',' value) with
    | .error err => .error err
    | .ok l => .ok (.slice elem (some l))
  | .tMap kt vt, value =>
    match coerceMapEntries kt vt (splitOnChar ',' value) [] with
    | .error err => .error err
    | .ok l => .ok (.map kt vt (some l))
  | .tPtr e, _ => .error ("unsupported type " ++ tyString (.tPtr e))
  | .tStruct h, _ => .error ("unsupported type " ++ tyString (.tStruct h))
termination_by t _ => (sizeOf t, 0, 0)
decreasing_by
  all_goals simp_wf
  all_goals apply Prod.Lex.left
  all_goals first
    | omega
    | (have h1 : 0 < sizeOf elem := Ty.sizeOf_pos elem; omega)
    | (have h1 : 0 < sizeOf kt := Ty.sizeOf_pos kt
       have h2 : 0 < sizeOf vt := Ty.sizeOf_pos vt
       omega)

/-- The slice loop of `processField`: trim each element and coerce it into
a fresh zero element of the slice's element type. -/
def coerceSliceElems (elem : Ty) : List Str → Except String (List Value)
  | [] => .ok []
  | v :: rest =>
    match coerceInto elem (trimSpace v) with
    | .error err => .error err
    | .ok x =>
      match coerceSliceElems elem rest with
      | .error err => .error err
      | .ok xs => .ok (x :: xs)
termination_by l => (sizeOf elem, 2, l.length)
decreasing_by
  all_goals simp_wf
  · apply Prod.Lex.right
    apply Prod.Lex.left
    omega
  · apply Prod.Lex.right
    apply Prod.Lex.right
    omega

/-- The map loop of `processField`: split each entry at the first `:`,
trim, coerce key and value, then `SetMapIndex`. -/
def coerceMapEntries (kt vt : Ty) : List Str → List (Value × Value) →
    Except String (List (Value × Value))
  | [], acc => .ok acc
  | v :: rest, acc =>
    match splitFirst ':' v with
    | (_, none) => .error ("invalid map value: " ++ String.mk v)
    | (ks, some vs) =>
      match coerceInto kt (trimSpace ks) with
      | .error err => .error err
      | .ok k =>
        match coerceInto vt (trimSpace vs) with
        | .error err => .error err
        | .ok mv => coerceMapEntries kt vt rest (mapInsert k mv acc)
termination_by l _ => (sizeOf kt + sizeOf vt, 2, l.length)
decreasing_by
  all_goals simp_wf
  · apply Prod.Lex.left
    have h2 : 0 < sizeOf vt := Ty.sizeOf_pos vt
    omega
  · apply Prod.Lex.left
    have h1 : 0 < sizeOf kt := Ty.sizeOf_pos kt
    omega
  · apply Prod.Lex.right
    apply Prod.Lex.right
    omega
end

/-- `processField(value, field)` coerces `value` into the destination
`field`; the outcome is determined by the destination's type. -/
def processField (value : Str) (field : Value) : Except String Value :=
  coerceInto (tyOf field) value

mutual
/-- `valueToString` (field.go): the textual rendering of a destination
value.  Go iterates map keys in unspecified order; the model renders the
stored entry order. -/
def valueToString : Value → Str
  | .str s => s
  | .bool b => if b then "true".toList else "false".toList -- strconv.FormatBool
  | .int _ v => formatInt v
  | .duration v => durationString v -- Duration.String
  | .uint _ v => formatUint v
  | .float bits v => formatFloat bits v -- strconv.FormatFloat(v, 'f', -1, bits)
  | .bytes b => match b with
    | none => [] -- string(nil) is ""
    | some s => s
  | .slice _ elems => match elems with
    | none => [] -- nil slice: no elements, Join gives ""
    | some l => joinWith ',' (valueToStringList l)
  | .map _ _ entries => match entries with
    | none => []
    | some l => joinWith ',' (valueToStringEntries l)
  | .ptr _ _ => [] -- default case of the switch
  | .structV _ _ => []

def valueToStringList : List Value → List Str
  | [] => []
  | v :: rest => valueToString v :: valueToStringList rest

def valueToStringEntries : List (Value × Value) → List Str
  | [] => []
  | (k, v) :: rest => (valueToString k ++ ':' :: valueToString v) :: valueToStringEntries rest
end

/-! ### Field descriptors and source adapters (field.go, flag.go, env) -/

/-- The `Field` descriptor of field.go.  `value` holds the destination's
current contents (the `reflect.Value` handle); `shortFlag` uses the rune 0
sentinel for "absent" exactly as the source does. -/
structure Field where
  value : Value
  name : Str
  envVar : Str
  flag : Str
  shortFlag : Char
  default : Str
  required : Bool
  mask : Bool
  usage : Str

/-- A resolution source (the `source` interface): `Source(f) (string, bool)`. -/
def Src := Field → Option Str

/-- `MutatorFunc(key, value) (string, error)`. -/
def Mutator := Str → Str → Except String Str

/-- Go map assignment `m[k] = v` on an association list. -/
def upsert (k : Str) (v : α) : List (Str × α) → List (Str × α)
  | [] => [(k, v)]
  | (k', v') :: rest =>
    if k' = k then (k', v) :: rest
    else (k', v') :: upsert k v rest

def lookupStr (k : Str) : List (Str × α) → Option α
  | [] => none
  | (k', v') :: rest => if k' = k then some v' else lookupStr k rest

/-- `newEnvSource` (env source file): snapshot `os.Environ()`, splitting
each entry at the first `=` and skipping entries without one. -/
def newEnvSource (environ : List Str) : List (Str × Str) :=
  environ.foldl
    (fun m e =>
      match splitFirst '=' e with
      | (_, none) => m -- len(pair) != 2: skip
      | (k, some v) => upsert k v m)
    []

/-- `(*env).Source`: look the descriptor's env name up in the snapshot. -/
def envSourceFn (m : List (Str × Str)) : Src := fun f => lookupStr f.envVar m

/-- The per-flag parse result of flag.go. -/
structure FlagValue where
  hasValue : Bool
  value : Str
deriving DecidableEq, Repr

/-- Outcome of `newFlagParser`: the argument map, an error (including the
`ErrHelp`/`ErrVersion` sentinels by their messages), or a runtime panic
(the unguarded `args[i+1][0]` index). -/
inductive FlagResult where
  | ok (m : List (Str × FlagValue))
  | err (msg : String)
  | panic
deriving Repr

/-- The per-argument analysis inside the scan loop of `newFlagParser`
(flag.go): too-short or dash-less arguments stop the scan; a bare dash
prefix with an empty, dashed or equals-led name is bad syntax; the name is
split at the first `=` into name and value; help/version names yield the
sentinel errors. -/
inductive ArgClass where
  | stop
  | bad (msg : String)
  | help
  | version
  | flagWith (name value : Str)
  | flagBare (name : Str)
deriving DecidableEq, Repr

def classifyArg (s : Str) : ArgClass :=
  if s.length < 2 ∨ s.headD ' ' ≠ '-' then .stop
  else
    let minus := if (s.drop 1).headD ' ' = '-' then 2 else 1
    let name := s.drop minus
    if name = [] ∨ name.headD ' ' = '-' ∨ name.headD ' ' = '=' then
      .bad ("bad flag syntax: " ++ String.mk s)
    else
      match splitFirst '=' name with
      | (name', v?) =>
        if name' = "help".toList ∨ name' = "h".toList then .help
        else if name' = "version".toList ∨ name' = "v".toList then .version
        else
          match v? with
          | some v => .flagWith name' v
          | none => .flagBare name'

/-- The scan loop of `newFlagParser` (flag.go): one iteration per argument;
a flag without an inline value consumes the following argument as its value
when that argument does not start with a dash — indexing into it without a
length check (`args[i+1][0]`), which panics on the empty string.  A
boolean-style bare flag is stored with `hasValue = false`. -/
def parseArgs : List Str → List (Str × FlagValue) → FlagResult
  | [], m => .ok m
  | s :: rest, m =>
    match classifyArg s with
    | .stop => .ok m
    | .bad msg => .err msg
    | .help => .err "help requested"
    | .version => .err "version requested"
    | .flagWith name value => parseArgs rest (upsert name ⟨true, value⟩ m)
    | .flagBare name =>
      match hr : rest with
      | [] => .ok (upsert name ⟨false, []⟩ m)
      | next :: rest' =>
        match next with
        | [] => .panic -- args[i+1][0] indexes into the empty string
        | c :: _ =>
          if c ≠ '-' then parseArgs rest' (upsert name ⟨true, next⟩ m)
          else parseArgs rest (upsert name ⟨false, []⟩ m)
termination_by l _ => l.length
decreasing_by all_goals simp_arith [*, List.length_cons]

/-- `newFlagParser` (flag.go). -/
def newFlagParser (args : List Str) : FlagResult := parseArgs args []

/-- The lower-case `source` method of the flag parser: boolean flags
without an explicit value resolve to "true". -/
def flagSourceLow (m : List (Str × FlagValue)) (key : Str) (isBool : Bool) : Option Str :=
  match lookupStr key m with
  | none => none -- ok = false
  | some fv =>
    if ¬ isBool then some fv.value
    else if fv.hasValue then some fv.value
    else some "true".toList

/-- `(*flag).Source`: try the short-flag alias first, then the long name;
the destination kind decides boolean treatment. -/
def flagSourceFn (m : List (Str × FlagValue)) : Src := fun f =>
  let isBoolType := tyOf f.value = Ty.tBool
  if f.shortFlag ≠ Char.ofNat 0 then
    match flagSourceLow m [f.shortFlag] isBoolType with
    | some v => some v
    | none => flagSourceLow m f.flag isBoolType
  else flagSourceLow m f.flag isBoolType

/-! ### The orchestrator (config.go) -/

/-- The mutator chain inside `processWithSource`: each non-nil mutator is
applied in order to `(f.Name, value)`; a failure wraps the error with the
field name. -/
def applyMutators (name : Str) : List (Option Mutator) → Str → Except String Str
  | [], val => .ok val
  | none :: rest, val => applyMutators name rest val
  | some mu :: rest, val =>
    match mu name val with
    | .error e => .error ("error executing mutator: " ++ String.mk name ++ ", error: " ++ e)
    | .ok val' => applyMutators name rest val'

/-- One iteration of the source loop in `processWithSource` (config.go):
skip nil sources and sources that do not resolve; otherwise mutate the
value and coerce it into the destination. -/
def sourceStep (ms : List (Option Mutator)) (src : Option Src) (f : Field) :
    Except String Field :=
  match src with
  | none => .ok f
  | some s =>
    match s f with
    | none => .ok f
    | some val =>
      match applyMutators f.name ms val with
      | .error e => .error e
      | .ok val' =>
        match processField val' f.value with
        | .error e => .error ("error processing field: " ++ String.mk f.name ++ ", error: " ++ e)
        | .ok v' => .ok { f with value := v' }

/-- `processWithSource` (config.go): fold the source list over the field. -/
def processWithSource (f : Field) : List (Option Src) → List (Option Mutator) →
    Except String Field
  | [], _ => .ok f
  | src :: rest, ms =>
    match sourceStep ms src f with
    | .error e => .error e
    | .ok f' => processWithSource f' rest ms

/-- The default-value step of the `parseWithDefaultSource` loop: coerce the
default into the destination only when a default exists and the destination
still holds its zero value. -/
def applyDefault (f : Field) : Except String Field :=
  if f.default ≠ [] ∧ isZero f.value then
    match processField f.default f.value with
    | .error e => .error ("error processing default value: " ++ String.mk f.name ++ ", error: " ++ e)
    | .ok v => .ok { f with value := v }
  else .ok f

/-- The required check at the end of the `parseWithDefaultSource` loop. -/
def requiredCheck (f : Field) : Except String Field :=
  if f.required ∧ isZero f.value then
    .error ("required field not set: " ++ String.mk f.name)
  else .ok f

/-- The body of the per-field loop of `parseWithDefaultSource`: default,
then the sources in order, then the required check. -/
def processOneField (sources : List (Option Src)) (ms : List (Option Mutator))
    (f : Field) : Except String Field :=
  match applyDefault f with
  | .error e => .error e
  | .ok f1 =>
    match processWithSource f1 sources ms with
    | .error e => .error e
    | .ok f2 => requiredCheck f2

/-- The full loop of `parseWithDefaultSource` over the extracted fields. -/
def parseFields (sources : List (Option Src)) (ms : List (Option Mutator)) :
    List Field → Except String (List Field)
  | [] => .ok []
  | f :: rest =>
    match processOneField sources ms f with
    | .error e => .error e
    | .ok f' =>
      match parseFields sources ms rest with
      | .error e => .error e
      | .ok rest' => .ok (f' :: rest')

/-- `parseWithDefaultSource` (config.go) on already-extracted fields: build
the flag parser and the environment snapshot, then run the loop with the
source list `[envSource, flag]`. -/
def parseWithDefaultSource (args environ : List Str) (ms : List (Option Mutator))
    (fields : List Field) : Except String (List Field) ⊕ Unit :=
  match newFlagParser args with
  | .panic => .inr () -- the construction panics before any field is processed
  | .err e => .inl (.error e)
  | .ok m =>
    let sources : List (Option Src) := [some (envSourceFn (newEnvSource environ)),
      some (flagSourceFn m)]
    .inl (parseFields sources ms fields)

/-! ### Renderer helpers (startup message file) -/

/-- The UTF-8 encoding of one rune (what Go's `len(s)` and byte slicing
see). -/
def utf8Bytes (c : Char) : List Nat :=
  let n := c.toNat
  if n < 0x80 then [n]
  else if n < 0x800 then [0xC0 + n / 64, 0x80 + n % 64]
  else if n < 0x10000 then [0xE0 + n / 4096, 0x80 + n / 64 % 64, 0x80 + n % 64]
  else [0xF0 + n / 262144, 0x80 + n / 4096 % 64, 0x80 + n / 64 % 64, 0x80 + n % 64]

/-- A Go string as its byte sequence. -/
def utf8Encode (s : Str) : List Nat := (s.map utf8Bytes).join

/-- `maskString` (startup messages), on bytes: Go guards on the byte
length (`len(s) > 3`) and slices bytes (`s[len(s)-3:]`), so masking keeps
the last three bytes — not the last three characters — and replaces the
rest with `*` (byte 42). -/
def maskString (b : List Nat) (mask : Bool) : List Nat :=
  if mask ∧ b.length > 3 then
    List.replicate (b.length - 3) 42 ++ b.drop (b.length - 3)
  else b

/-! ### splitCamelCase (field.go) -/

/-- `splitCamelCase` (field.go): scan the rune list, starting a new word at
every uppercase rune whose predecessor is not uppercase.  The Go loop keeps
`lastChar` (the previous rune, initially the first rune, so index 0 never
splits) and slices between split points; the recursion carries the previous
rune and the current word (reversed).  Parameterised over the `IsUpper`
predicate (`unicode.IsUpper` in Go; the ASCII fragment agrees with
`Char.isUpper`). -/
def splitCamelAux (up : Char → Bool) : Char → Str → Str → List Str
  | _, acc, [] => [acc.reverse]
  | prev, acc, c :: rest =>
    if up c ∧ ¬ up prev then acc.reverse :: splitCamelAux up c [c] rest
    else splitCamelAux up c (c :: acc) rest

def splitCamelCase (up : Char → Bool) (s : Str) : List Str :=
  match s with
  | [] => []
  | c :: rest => splitCamelAux up c [c] rest

/-! ### Field extraction (field.go): tag validation and the conflict check -/

def isUpperAZ (c : Char) : Bool := 65 ≤ c.toNat && c.toNat ≤ 90
def isLowerAZ (c : Char) : Bool := 97 ≤ c.toNat && c.toNat ≤ 122

/-- ASCII fragment of `strings.ToUpper` (the inputs are Go identifiers). -/
def toUpperC (c : Char) : Char := if isLowerAZ c then Char.ofNat (c.toNat - 32) else c

/-- ASCII fragment of `strings.ToLower`. -/
def toLowerC (c : Char) : Char := if isUpperAZ c then Char.ofNat (c.toNat + 32) else c

/-- `validateEnvVarName` (field.go): non-empty, not starting with a digit,
only uppercase letters, digits and underscores. -/
def validateEnvVarName (name : Str) : Bool :=
  match name with
  | [] => false
  | c0 :: _ =>
    if isDigitC c0 then false
    else name.all fun ch => isUpperAZ ch || isDigitC ch || ch = '_'

/-- The character scan of `validateFlagName`: every rune is a lowercase
letter, a digit or a hyphen, and no hyphen follows a hyphen. -/
def flagChars : Char → Str → Bool
  | _, [] => true
  | prev, ch :: rest =>
    if isLowerAZ ch || isDigitC ch || ch = '-' then
      if ch = '-' ∧ prev = '-' then false else flagChars ch rest
    else false

/-- `validateFlagName` (field.go): non-empty, starts with a lowercase
letter, does not end with a hyphen, and passes the character scan. -/
def validateFlagName (name : Str) : Bool :=
  match name with
  | [] => false
  | c0 :: rest =>
    if ¬ isLowerAZ c0 then false
    else if name.getLastD ' ' = '-' then false
    else flagChars c0 rest

/-- `createOrValidateEnvVarName` (field.go). -/
def createOrValidateEnvVarName (envVarTag : Str) (fieldKey : List Str) :
    Except String Str :=
  if envVarTag = [] then .ok ((joinWith '_' fieldKey).map toUpperC)
  else if ¬ validateEnvVarName envVarTag then
    .error ("invalid environment variable name has been provided: " ++ String.mk envVarTag)
  else .ok envVarTag

/-- `createOrValidateFlagName` (field.go). -/
def createOrValidateFlagName (flagTag : Str) (fieldKey : List Str) :
    Except String Str :=
  if flagTag = [] then .ok ((joinWith '-' fieldKey).map toLowerC)
  else if ¬ validateFlagName flagTag then
    .error ("invalid flag name has been provided: " ++ String.mk flagTag)
  else .ok flagTag

/-- A struct field as reflection sees it: identifier, exportedness
(`CanSet`/`PkgPath`), anonymity, the seven tags, the destination value,
and — when the destination is a struct — its own fields. -/
inductive GoField where
  | mk : (name : Str) → (exported : Bool) → (anonymous : Bool) →
      (tagEnv : Str) → (tagFlag : Str) → (tagShort : Str) →
      (tagDefault : Str) → (tagRequired : Str) → (tagMask : Str) →
      (tagUsage : Str) → (value : Value) → (sub : List GoField) → GoField

/-- `processDecoder` (field.go) on the value model: a struct destination
with decoder capability has `Decode(value)` invoked (the reference decoder
of the package documentation stores the raw string); everything else is
untouched.  In the source this function is reached only from
`extractFields` with the empty string. -/
def processDecoder (value : Str) : Value → Except String Value
  | .structV true _ => .ok (.structV true (some value))
  | v => .ok v

/-- The field loop of `extractFields` (field.go): skip unexported or
`env:"-"` fields, derive and validate names, reject the required/default
tag conflict, and descend into struct-typed fields (replacing the struct's
own descriptor with its children, and resetting the prefix for anonymous
fields). -/
def extractFieldsStruct (pre : List Str) : List GoField → Except String (List Field)
  | [] => .ok []
  | GoField.mk name exported anon tEnv tFlag tShort tDefault tRequired _tMask _tUsage value sub :: rest =>
    if ¬ exported ∨ tEnv = "-".toList then extractFieldsStruct pre rest
    else
      let fieldKey := pre ++ splitCamelCase Char.isUpper name
      match createOrValidateEnvVarName tEnv fieldKey with
      | .error e => .error e
      | .ok envName =>
        match createOrValidateFlagName tFlag fieldKey with
        | .error e => .error e
        | .ok flag =>
          if tShort ≠ [] ∧ tShort.length ≠ 1 then
            .error "short flag name must be a single character"
          else
            let short := if tShort ≠ [] then tShort.headD ' ' else Char.ofNat 0
            if tRequired = "true".toList ∧ tDefault ≠ [] then
              .error ("required field " ++ String.mk name ++ " cannot have a default value")
            else
              let field : Field :=
                { value := value, name := joinWith '_' fieldKey, envVar := envName,
                  flag := flag, shortFlag := short, default := tDefault,
                  required := tRequired = "true".toList, mask := _tMask = "true".toList,
                  usage := _tUsage }
              match value with
              | .structV hd dec =>
                match processDecoder [] (.structV hd dec) with
                | .error e =>
                  .error ("error processing decoder for FieldValue: " ++ String.mk name ++ " " ++ e)
                | .ok _ =>
                  let innerPre := if anon then pre else fieldKey
                  match extractFieldsStruct innerPre sub with
                  | .error e =>
                    .error ("error parsing embedded struct for FieldValue: " ++ String.mk name ++ " " ++ e)
                  | .ok embedded =>
                    match extractFieldsStruct pre rest with
                    | .error e => .error e
                    | .ok rest' => .ok (embedded ++ rest')
              | _ =>
                match extractFieldsStruct pre rest with
                | .error e => .error e
                | .ok rest' => .ok (field :: rest')
termination_by l => sizeOf l
decreasing_by all_goals simp_arith

/-! ### Round-trippability (claim C8) -/

/-- `s` contains no occurrence of `c`. -/
def charFree (c : Char) (s : Str) : Bool := s.all fun x => x ≠ c

/-- `s` is unchanged by `strings.TrimSpace`. -/
def trimStable (s : Str) : Bool := trimSpace s = s

/-- A rendered slice element / map value survives the delimiter split and
the per-element trim. -/
def goodElemStr (s : Str) : Bool := charFree ',' s && trimStable s

/-- A rendered map key additionally survives the key/value split at the
first colon. -/
def goodKeyStr (s : Str) : Bool := charFree ',' s && charFree ':' s && trimStable s

/-- Pairwise distinct keys in a map's entry list. -/
def distinctKeys : List (Value × Value) → Bool
  | [] => true
  | (k, _) :: rest => rest.all (fun p => p.1 ≠ k) && distinctKeys rest

instance : DecidableEq (Except String Rat) := fun a b =>
  match a, b with
  | .ok x, .ok y => decidable_of_iff (x = y) (by simp)
  | .error x, .error y => decidable_of_iff (x = y) (by simp)
  | .ok _, .error _ => isFalse (by simp)
  | .error _, .ok _ => isFalse (by simp)

mutual
/-- The value shapes for which the renderer's output coerces back to the
original (the amended form of the spec's round-trip property): scalars in
range, floats that are grid values (finite IEEE-representable numbers,
fixed points of the grid rounding) or infinities, non-nil byte slices,
non-empty slices/maps whose rendered elements survive the comma split and
the trim, with distinct and colon-free map keys.  `tUint 8` slice elements
are excluded because the model represents `[]byte` as the dedicated bytes
kind; NaN is excluded because it is not equal to its own re-parse. -/
def rtOK : Value → Bool
  | .str _ => true
  | .bool _ => true
  | .int bits v =>
    decide (1 ≤ bits) && decide (-(2 ^ (bits - 1) : Int) ≤ v) && decide (v < 2 ^ (bits - 1))
  | .duration v => decide (-(2 ^ 63 : Int) ≤ v) && decide (v < 2 ^ 63)
  | .uint bits v => decide (1 ≤ bits) && decide (v ≤ 2 ^ bits - 1)
  | .float bits v =>
    match v with
    | .finite q => decide (roundFloat bits q = .ok q)
    | .inf _ => true
    | .nan => false
  | .bytes b => b.isSome
  | .slice elem xs? =>
    match xs? with
    | none => false
    | some xs => decide (elem ≠ .tUint 8) && decide (xs ≠ []) && rtOKL elem xs
  | .map kt vt es? =>
    match es? with
    | none => false
    | some es => decide (es ≠ []) && distinctKeys es && rtOKE kt vt es
  | .ptr _ _ => false
  | .structV _ _ => false

def rtOKL (elem : Ty) : List Value → Bool
  | [] => true
  | x :: rest =>
    decide (tyOf x = elem) && rtOK x && goodElemStr (valueToString x) && rtOKL elem rest

def rtOKE (kt vt : Ty) : List (Value × Value) → Bool
  | [] => true
  | (k, v) :: rest =>
    decide (tyOf k = kt) && decide (tyOf v = vt) && rtOK k && rtOK v &&
    goodKeyStr (valueToString k) && goodElemStr (valueToString v) && rtOKE kt vt rest
end

/-! ### Split/join and map-insert inverse lemmas -/

theorem splitOnChar_charFree (sep : Char) (s : Str) (h : charFree sep s = true) :
    splitOnChar sep s = [s] := by
  induction s with
  | nil => rfl
  | cons c rest ih =>
    simp only [charFree, List.all_cons, Bool.and_eq_true, decide_eq_true_eq] at h
    rw [splitOnChar, if_neg (by simpa using h.1), ih (by simpa [charFree] using h.2)]

theorem splitOnChar_append (sep : Char) (x t : Str) (h : charFree sep x = true) :
    splitOnChar sep (x ++ sep :: t) = x :: splitOnChar sep t := by
  induction x with
  | nil => simp [splitOnChar]
  | cons c x' ih =>
    simp only [charFree, List.all_cons, Bool.and_eq_true, decide_eq_true_eq] at h
    rw [List.cons_append, splitOnChar, if_neg (by simpa using h.1),
      ih (by simpa [charFree] using h.2)]

theorem splitOnChar_joinWith (sep : Char) (ss : List Str) (hne : ss ≠ [])
    (h : ∀ s ∈ ss, charFree sep s = true) :
    splitOnChar sep (joinWith sep ss) = ss := by
  induction ss with
  | nil => exact absurd rfl hne
  | cons x rest ih =>
    match rest with
    | [] => exact splitOnChar_charFree sep x (h x (by simp))
    | y :: rest' =>
      rw [joinWith, splitOnChar_append sep x _ (h x (by simp)),
        ih (by simp) (fun s hs => h s (by simp [hs]))]
      simp

theorem splitFirst_append (sep : Char) (k v : Str) (h : charFree sep k = true) :
    splitFirst sep (k ++ sep :: v) = (k, some v) := by
  induction k with
  | nil => simp [splitFirst]
  | cons c k' ih =>
    simp only [charFree, List.all_cons, Bool.and_eq_true, decide_eq_true_eq] at h
    rw [List.cons_append, splitFirst, if_neg (by simpa using h.1),
      ih (by simpa [charFree] using h.2)]

theorem mapInsert_append (k v : Value) (acc : List (Value × Value))
    (h : ∀ p ∈ acc, p.1 ≠ k) : mapInsert k v acc = acc ++ [(k, v)] := by
  induction acc with
  | nil => rfl
  | cons p rest ih =>
    match p with
    | (k', v') =>
      rw [mapInsert, if_neg (h (k', v') (by simp)), ih (fun q hq => h q (by simp [hq]))]
      rfl

theorem coerceSliceElems_ok (elem : Ty) (xs : List Value)
    (h : ∀ x ∈ xs, trimSpace (valueToString x) = valueToString x ∧
      coerceInto elem (valueToString x) = .ok x) :
    coerceSliceElems elem (valueToStringList xs) = .ok xs := by
  induction xs with
  | nil => rw [valueToStringList, coerceSliceElems]
  | cons x rest ih =>
    obtain ⟨ht, hc⟩ := h x (by simp)
    rw [valueToStringList, coerceSliceElems, ht, hc,
      ih (fun y hy => h y (by simp [hy]))]

theorem coerceMapEntries_ok (kt vt : Ty) (es : List (Value × Value)) :
    ∀ (acc : List (Value × Value)),
    (∀ p ∈ es, charFree ':' (valueToString p.1) = true ∧
      trimSpace (valueToString p.1) = valueToString p.1 ∧
      trimSpace (valueToString p.2) = valueToString p.2 ∧
      coerceInto kt (valueToString p.1) = .ok p.1 ∧
      coerceInto vt (valueToString p.2) = .ok p.2) →
    coerceMapEntries kt vt (valueToStringEntries es) acc =
      .ok (es.foldl (fun a p => mapInsert p.1 p.2 a) acc) := by
  induction es with
  | nil => intro acc _; rw [valueToStringEntries, coerceMapEntries, List.foldl_nil]
  | cons p rest ih =>
    intro acc h
    obtain ⟨k, v⟩ := p
    obtain ⟨hcf, htk, htv, hck, hcv⟩ := h (k, v) (by simp)
    rw [valueToStringEntries, coerceMapEntries]
    simp only [splitFirst_append ':' (valueToString k) (valueToString v) hcf]
    rw [htk, hck, htv, hcv, List.foldl_cons]
    simp only [ih (mapInsert k v acc) (fun q hq => h q (by simp [hq]))]

theorem foldl_mapInsert (es : List (Value × Value)) :
    ∀ (acc : List (Value × Value)),
    (∀ p ∈ es, ∀ q ∈ acc, q.1 ≠ p.1) → distinctKeys es = true →
    es.foldl (fun a p => mapInsert p.1 p.2 a) acc = acc ++ es := by
  induction es with
  | nil => intro acc _ _; simp
  | cons p rest ih =>
    intro acc hdisj hdk
    obtain ⟨k, v⟩ := p
    rw [distinctKeys, Bool.and_eq_true] at hdk
    rw [List.foldl_cons]
    have hstep : mapInsert k v acc = acc ++ [(k, v)] :=
      mapInsert_append k v acc (fun q hq => hdisj (k, v) (by simp) q hq)
    simp only [hstep]
    have hdisj' : ∀ p ∈ rest, ∀ q ∈ acc ++ [(k, v)], q.1 ≠ p.1 := by
      intro p hp q hq
      rcases List.mem_append.mp hq with hq | hq
      · exact hdisj p (by simp [hp]) q hq
      · have hq' : q = (k, v) := by simpa using hq
        subst hq'
        have hne := List.all_eq_true.mp hdk.1 p hp
        simp only [decide_eq_true_eq] at hne
        simpa using fun hpe => hne hpe.symm
    rw [ih (acc ++ [(k, v)]) hdisj' hdk.2]
    simp

theorem rtOKL_mem (elem : Ty) (xs : List Value) (h : rtOKL elem xs = true) :
    ∀ x ∈ xs, tyOf x = elem ∧ rtOK x = true ∧ goodElemStr (valueToString x) = true := by
  induction xs with
  | nil => intro x hx; cases hx
  | cons y rest ih =>
    rw [rtOKL] at h
    simp only [Bool.and_eq_true, decide_eq_true_eq] at h
    intro x hx
    rcases List.mem_cons.mp hx with hx | hx
    · subst hx
      exact ⟨h.1.1.1, h.1.1.2, h.1.2⟩
    · exact ih h.2 x hx

theorem rtOKE_mem (kt vt : Ty) (es : List (Value × Value)) (h : rtOKE kt vt es = true) :
    ∀ p ∈ es, tyOf p.1 = kt ∧ tyOf p.2 = vt ∧ rtOK p.1 = true ∧ rtOK p.2 = true ∧
      goodKeyStr (valueToString p.1) = true ∧ goodElemStr (valueToString p.2) = true := by
  induction es with
  | nil => intro p hp; cases hp
  | cons q rest ih =>
    obtain ⟨k, v⟩ := q
    rw [rtOKE] at h
    simp only [Bool.and_eq_true, decide_eq_true_eq] at h
    intro p hp
    rcases List.mem_cons.mp hp with hp | hp
    · subst hp
      exact ⟨h.1.1.1.1.1.1, h.1.1.1.1.1.2, h.1.1.1.1.2, h.1.1.1.2, h.1.1.2, h.1.2⟩
    · exact ih h.2 p hp

theorem valueToStringList_eq_map (xs : List Value) :
    valueToStringList xs = xs.map valueToString := by
  induction xs with
  | nil => rw [valueToStringList, List.map_nil]
  | cons x rest ih => rw [valueToStringList, List.map_cons, ih]

theorem valueToStringEntries_eq_map (es : List (Value × Value)) :
    valueToStringEntries es = es.map fun p => valueToString p.1 ++ ':' :: valueToString p.2 := by
  induction es with
  | nil => rw [valueToStringEntries, List.map_nil]
  | cons p rest ih =>
    obtain ⟨k, v⟩ := p
    rw [valueToStringEntries, List.map_cons, ih]

/-- The inductive core of the round-trip property: a round-trippable value,
rendered and coerced back into a fresh destination of its own type, is
reproduced.  Induction on a size bound to reach slice elements and map
entries. -/
theorem roundTrip_aux : ∀ (n : Nat) (v : Value), sizeOf v ≤ n → rtOK v = true →
    coerceInto (tyOf v) (valueToString v) = .ok v := by
  intro n
  induction n with
  | zero =>
    intro v hv _
    exfalso
    cases v <;> simp_arith at hv
  | succ n ih =>
    intro v hv hrt
    cases v with
    | str s => simp [tyOf, valueToString, coerceInto, coerceBase]
    | bool b =>
      have ht : parseBool ['t', 'r', 'u', 'e'] = .ok true := rfl
      have hf : parseBool ['f', 'a', 'l', 's', 'e'] = .ok false := rfl
      cases b
      · simp [tyOf, valueToString, coerceInto, coerceBase, hf]
      · simp [tyOf, valueToString, coerceInto, coerceBase, ht]
    | int bits x =>
      rw [rtOK] at hrt
      simp only [Bool.and_eq_true, decide_eq_true_eq] at hrt
      obtain ⟨⟨h1, h2⟩, h3⟩ := hrt
      simp [tyOf, valueToString, coerceInto, coerceBase, parseInt_formatInt x bits h1 h2 h3]
    | duration d =>
      rw [rtOK] at hrt
      simp only [Bool.and_eq_true, decide_eq_true_eq] at hrt
      simp [tyOf, valueToString, coerceInto, coerceBase,
        parseDuration_durationString d hrt.1 hrt.2]
    | uint bits x =>
      rw [rtOK] at hrt
      simp only [Bool.and_eq_true, decide_eq_true_eq] at hrt
      simp [tyOf, valueToString, coerceInto, coerceBase, formatUint,
        parseUint_natDec x bits hrt.1 hrt.2]
    | float bits fv =>
      match fv with
      | .nan => rw [rtOK] at hrt; simp at hrt
      | .inf b =>
        have hpb : parseFloatVal (formatFloat bits (.inf b)) bits = .ok (.inf b) := by
          cases b <;> rfl
        simp [tyOf, valueToString, coerceInto, coerceBase, hpb]
      | .finite q =>
        rw [rtOK] at hrt
        simp only [decide_eq_true_eq] at hrt
        simp [tyOf, valueToString, coerceInto, coerceBase, parseFloat_formatFloat bits q hrt]
    | bytes b =>
      cases b with
      | none => rw [rtOK] at hrt; simp at hrt
      | some s => simp [tyOf, valueToString, coerceInto, coerceBase]
    | ptr e inner => rw [rtOK] at hrt; simp at hrt
    | structV hd dec => rw [rtOK] at hrt; simp at hrt
    | slice elem xs? =>
      cases xs? with
      | none => rw [rtOK] at hrt; simp at hrt
      | some xs =>
        rw [rtOK] at hrt
        simp only [Bool.and_eq_true, decide_eq_true_eq] at hrt
        obtain ⟨⟨_hne8, hnil⟩, hl⟩ := hrt
        have hmem := rtOKL_mem elem xs hl
        have hsz : ∀ x ∈ xs, sizeOf x ≤ n := by
          intro x hx
          have h1 := List.sizeOf_lt_of_mem hx
          have h2 : sizeOf xs < sizeOf (Value.slice elem (some xs)) := by simp_arith
          omega
        have hsplit : splitOnChar ',' (joinWith ',' (valueToStringList xs)) =
            valueToStringList xs := by
          apply splitOnChar_joinWith
          · rw [valueToStringList_eq_map]
            simpa using hnil
          · intro s hs
            rw [valueToStringList_eq_map] at hs
            obtain ⟨x, hx, hxs⟩ := List.mem_map.mp hs
            obtain ⟨_, _, hg⟩ := hmem x hx
            simp only [goodElemStr, Bool.and_eq_true] at hg
            rw [← hxs]
            exact hg.1
        have hc : coerceSliceElems elem (valueToStringList xs) = .ok xs := by
          apply coerceSliceElems_ok
          intro x hx
          obtain ⟨hty, hr, hg⟩ := hmem x hx
          simp only [goodElemStr, Bool.and_eq_true, trimStable,
            decide_eq_true_eq] at hg
          refine ⟨hg.2, ?_⟩
          rw [← hty]
          exact ih x (hsz x hx) hr
        rw [tyOf, valueToString, coerceInto]
        · rw [coerceBase]
          simp only [hsplit, hc]
        · simp
    | map kt vt es? =>
      cases es? with
      | none => rw [rtOK] at hrt; simp at hrt
      | some es =>
        rw [rtOK] at hrt
        simp only [Bool.and_eq_true, decide_eq_true_eq] at hrt
        obtain ⟨⟨hnil, hdk⟩, he⟩ := hrt
        have hmem := rtOKE_mem kt vt es he
        have hsz : ∀ p ∈ es, sizeOf p.1 ≤ n ∧ sizeOf p.2 ≤ n := by
          intro p hp
          have h1 := List.sizeOf_lt_of_mem hp
          have h2 : sizeOf es < sizeOf (Value.map kt vt (some es)) := by simp_arith
          obtain ⟨a, b⟩ := p
          simp only [Prod.mk.sizeOf_spec] at h1
          simp only
          omega
        have hsplit : splitOnChar ',' (joinWith ',' (valueToStringEntries es)) =
            valueToStringEntries es := by
          apply splitOnChar_joinWith
          · rw [valueToStringEntries_eq_map]
            simpa using hnil
          · intro s hs
            rw [valueToStringEntries_eq_map] at hs
            obtain ⟨p, hp, hps⟩ := List.mem_map.mp hs
            obtain ⟨_, _, _, _, hgk, hgv⟩ := hmem p hp
            simp only [goodKeyStr, goodElemStr, Bool.and_eq_true] at hgk hgv
            rw [← hps]
            simp only [charFree, List.all_append, List.all_cons, Bool.and_eq_true]
            refine ⟨?_, by simp, ?_⟩
            · simpa [charFree] using hgk.1.1
            · simpa [charFree] using hgv.1
        have hc : coerceMapEntries kt vt (valueToStringEntries es) [] =
            .ok (es.foldl (fun a p => mapInsert p.1 p.2 a) []) := by
          apply coerceMapEntries_ok
          intro p hp
          obtain ⟨htk, htv, hrk, hrv, hgk, hgv⟩ := hmem p hp
          simp only [goodKeyStr, goodElemStr, Bool.and_eq_true, trimStable,
            decide_eq_true_eq] at hgk hgv
          refine ⟨hgk.1.2, hgk.2, hgv.2, ?_, ?_⟩
          · rw [← htk]
            exact ih p.1 (hsz p hp).1 hrk
          · rw [← htv]
            exact ih p.2 (hsz p hp).2 hrv
        have hfold : es.foldl (fun a p => mapInsert p.1 p.2 a) [] = es := by
          have := foldl_mapInsert es [] (by intro p _ q hq; cases hq) hdk
          simpa using this
        rw [tyOf, valueToString, coerceInto]
        · rw [coerceBase]
          simp only [hsplit, hc, hfold]
        · simp

theorem tyOf_zeroOf (t : Ty) : tyOf (zeroOf t) = t := by
  cases t <;> rfl

theorem splitFirst_noSep (sep : Char) (s : Str) (h : charFree sep s = true) :
    splitFirst sep s = (s, none) := by
  induction s with
  | nil => rfl
  | cons c rest ih =>
    simp only [charFree, List.all_cons, Bool.and_eq_true, decide_eq_true_eq] at h
    rw [splitFirst, if_neg (by simpa using h.1), ih (by simpa [charFree] using h.2)]

/-! ### The claim theorems -/

/-- C2: the orchestrator coerces the default into the destination exactly
when the default string is non-empty and the destination still holds its
zero value; otherwise the default-application step leaves the field
untouched. -/
theorem C2_default_application (f : Field) :
    (f.default ≠ [] ∧ isZero f.value = true →
      applyDefault f = (match processField f.default f.value with
        | .error e => .error ("error processing default value: " ++ String.mk f.name ++ ", error: " ++ e)
        | .ok v => .ok { f with value := v })) ∧
    (¬ (f.default ≠ [] ∧ isZero f.value = true) → applyDefault f = .ok f) := by
  constructor
  · intro h
    rw [applyDefault, if_pos h]
  · intro h
    rw [applyDefault, if_neg h]

theorem C2_default_application_witness :
    (¬ (([] : Str) ≠ [] ∧ isZero (Value.str []) = true)) ∧
    applyDefault
        { value := Value.str [], name := ['x'], envVar := [], flag := [],
          shortFlag := Char.ofNat 0, default := [], required := false, mask := false,
          usage := [] } =
      .ok
        { value := Value.str [], name := ['x'], envVar := [], flag := [],
          shortFlag := Char.ofNat 0, default := [], required := false, mask := false,
          usage := [] } :=
  ⟨by simp, (C2_default_application _).2 (by simp)⟩

/-- C3: after the default step and the source pass, a required descriptor
whose destination still holds its zero value makes the orchestration fail
with the error naming the descriptor, and the check passes when the
destination is non-zero. -/
theorem C3_required_check (sources : List (Option Src)) (ms : List (Option Mutator))
    (f f1 f2 : Field) (h1 : applyDefault f = .ok f1)
    (h2 : processWithSource f1 sources ms = .ok f2) :
    (f2.required = true ∧ isZero f2.value = true →
      processOneField sources ms f = .error ("required field not set: " ++ String.mk f2.name)) ∧
    (isZero f2.value = false → processOneField sources ms f = .ok f2) := by
  constructor
  · intro h
    simp only [processOneField, h1, h2]
    rw [requiredCheck, if_pos h]
  · intro h
    simp only [processOneField, h1, h2]
    rw [requiredCheck, if_neg (by simp [h])]

def c3Field : Field :=
  { value := Value.bool false, name := ['r'], envVar := [], flag := [],
    shortFlag := Char.ofNat 0, default := [], required := true, mask := false,
    usage := [] }

theorem C3_required_check_witness :
    applyDefault c3Field = .ok c3Field ∧
    processOneField [] [] c3Field = .error ("required field not set: " ++ String.mk ['r']) := by
  have hf : applyDefault c3Field = .ok c3Field := by
    rw [applyDefault, if_neg (by simp [c3Field])]
  refine ⟨hf, ?_⟩
  exact (C3_required_check [] [] c3Field c3Field c3Field hf rfl).1 (by simp [c3Field, isZero])

/-- C7: the shipped coercer never invokes the decoder capability: coercing
any raw string into a struct destination that implements the decode hook
fails with the unsupported-type error, while the (unreached) decoder
routine would have accepted the raw string.  The decoder routine is only
ever called from field extraction, with the empty string. -/
theorem C7_decoder_not_invoked (raw : Str) (dec : Option Str) :
    processField raw (Value.structV true dec) = .error "unsupported type struct" ∧
    processDecoder raw (Value.structV true dec) = .ok (Value.structV true (some raw)) := by
  constructor
  · rw [processField, tyOf, coerceInto]
    · rw [coerceBase]
      rfl
    · simp
  · rfl

/-- C8 (amended): for round-trippable values — scalars in range, non-nil
byte slices, non-empty slices and maps whose rendered elements survive the
comma split and the per-element trim, with distinct colon-free map keys —
rendering with `valueToString` and coercing the text back into a fresh
destination of the same type reproduces the value. -/
theorem C8_round_trip (v : Value) (h : rtOK v = true) :
    processField (valueToString v) (zeroOf (tyOf v)) = .ok v := by
  rw [processField, tyOf_zeroOf]
  exact roundTrip_aux (sizeOf v) v le_rfl h

theorem roundFloat_one : roundFloat 64 1 = .ok 1 := by
  have hb : binadeExp |(1 : Rat)| = 0 := by
    rw [binadeExp, if_pos (by norm_num)]
    norm_num
    simp [Nat.log2]
  rw [roundFloat, if_neg (by norm_num)]
  simp only [hb]
  norm_num [floatMantBits, floatMinExp, floatMaxFinite]
  rw [show ((4503599627370496 : Rat)) = ((4503599627370496 : Int) : Rat) by norm_num,
    roundHE_intCast]
  norm_num

theorem C8_round_trip_witness :
    (rtOK (Value.slice .tString (some [.str ['a'], .str ['b']])) = true ∧
      processField (valueToString (Value.slice .tString (some [.str ['a'], .str ['b']])))
        (zeroOf (tyOf (Value.slice .tString (some [.str ['a'], .str ['b']])))) =
        .ok (Value.slice .tString (some [.str ['a'], .str ['b']]))) ∧
    (rtOK (Value.float 64 (.finite 1)) = true ∧
      processField (valueToString (Value.float 64 (.finite 1)))
        (zeroOf (tyOf (Value.float 64 (.finite 1)))) =
        .ok (Value.float 64 (.finite 1))) :=
  ⟨⟨by rfl, C8_round_trip (Value.slice .tString (some [.str ['a'], .str ['b']])) (by rfl)⟩,
    ⟨by simp [rtOK, roundFloat_one], C8_round_trip (Value.float 64 (.finite 1))
      (by simp [rtOK, roundFloat_one])⟩⟩

/-- C8 counterexample to the unamended claim: a populated slice destination
whose element contains the delimiter renders to "a,b", which coerces back
to the two-element slice, not the original one-element slice. -/
theorem C8_counterexample :
    processField (valueToString (Value.slice .tString (some [.str ['a', ',', 'b']])))
      (zeroOf (tyOf (Value.slice .tString (some [.str ['a', ',', 'b']])))) =
      .ok (Value.slice .tString (some [.str ['a'], .str ['b']])) ∧
    Value.slice .tString (some [.str ['a'], .str ['b']]) ≠
      Value.slice .tString (some [.str ['a', ',', 'b']]) := by
  constructor
  · simp [processField, valueToString, valueToStringList, zeroOf, tyOf, joinWith,
      coerceInto, coerceBase, coerceSliceElems, splitOnChar, trimSpace, goIsSpace]
  · simp

/-- C9 (amended): the masker works on bytes.  With masking requested, a
string of at most three BYTES is returned in full; longer byte strings
keep their length and expose exactly their last three bytes, the rest
starred out.  For pure-ASCII strings byte count and character count agree,
so one-to-three-character ASCII secrets are rendered in full — but a
multi-byte string of at most three characters can exceed three bytes and
is then masked (see the counterexample), so the character-based reading of
the claim is false of the program. -/
theorem C9_mask_short_strings (b : List Nat) :
    (b.length ≤ 3 → maskString b true = b) ∧
    (maskString b true).length = b.length ∧
    (3 < b.length → ∀ c ∈ (maskString b true).take (b.length - 3), c = 42) ∧
    (3 < b.length → (maskString b true).drop (b.length - 3) = b.drop (b.length - 3)) ∧
    (∀ s : Str, (∀ c ∈ s, c.toNat < 128) → s.length ≤ 3 →
      maskString (utf8Encode s) true = utf8Encode s) := by
  have hascii : ∀ s : Str, (∀ c ∈ s, c.toNat < 128) → (utf8Encode s).length = s.length := by
    intro s hs
    induction s with
    | nil => rfl
    | cons c rest ih =>
      have hc : c.toNat < 128 := hs c (by simp)
      have hone : utf8Bytes c = [c.toNat] := by
        rw [utf8Bytes, if_pos (by omega)]
      have hr := ih (fun x hx => hs x (by simp [hx]))
      rw [utf8Encode] at hr
      simp [utf8Encode, hone, hr]
  refine ⟨?_, ?_, ?_, ?_, ?_⟩
  · intro h
    rw [maskString, if_neg (by simp; omega)]
  · by_cases h : 3 < b.length
    · rw [maskString, if_pos (by simp; omega)]
      simp only [List.length_append, List.length_replicate, List.length_drop]
      omega
    · rw [maskString, if_neg (by simp; omega)]
  · intro h c hc
    rw [maskString, if_pos (by simp; omega)] at hc
    have htake : (List.replicate (b.length - 3) 42 ++ b.drop (b.length - 3)).take
        (b.length - 3) = List.replicate (b.length - 3) 42 := by
      have h1 := List.take_left (List.replicate (b.length - 3) 42) (b.drop (b.length - 3))
      simpa using h1
    rw [htake] at hc
    exact List.eq_of_mem_replicate hc
  · intro h
    rw [maskString, if_pos (by simp; omega)]
    have h1 := List.drop_left (List.replicate (b.length - 3) 42) (b.drop (b.length - 3))
    simpa using h1
  · intro s hs hlen
    rw [maskString, if_neg (by rw [hascii s hs]; simp; omega)]

theorem C9_mask_short_strings_witness :
    (utf8Encode ['a', 'b'] : List Nat).length ≤ 3 ∧
    maskString (utf8Encode ['a', 'b']) true = utf8Encode ['a', 'b'] :=
  ⟨by decide, (C9_mask_short_strings (utf8Encode ['a', 'b'])).1 (by decide)⟩

/-- C9 counterexample to the character-based claim: "ñop" is three
characters but four bytes, so the program masks it (the first byte of the
two-byte ñ becomes a star, leaving a star and the trailing bytes), while
the claim asserts any masked value of one to three characters is rendered
in full. -/
theorem C9_counterexample :
    (['ñ', 'o', 'p'] : Str).length ≤ 3 ∧
    maskString (utf8Encode ['ñ', 'o', 'p']) true = [42, 177, 111, 112] ∧
    maskString (utf8Encode ['ñ', 'o', 'p']) true ≠ utf8Encode ['ñ', 'o', 'p'] := by
  refine ⟨by decide, by decide, by decide⟩

/-- C4 (amended): for every struct field that extraction actually
processes — exported, not opted out with env:"-", with valid (or absent)
env/flag/shortFlag tags — carrying required:"true" together with a
non-empty default tag makes extraction fail with the tag-conflict error,
regardless of the field's type and before the field loop continues. -/
theorem C4_tag_conflict (pre : List Str) (name : Str) (anon : Bool)
    (tEnv tFlag tShort tDefault tMask tUsage : Str) (value : Value)
    (sub rest : List GoField) (en fl : Str)
    (henv : tEnv ≠ "-".toList)
    (hen : createOrValidateEnvVarName tEnv (pre ++ splitCamelCase Char.isUpper name) = .ok en)
    (hfl : createOrValidateFlagName tFlag (pre ++ splitCamelCase Char.isUpper name) = .ok fl)
    (hshort : tShort = [] ∨ tShort.length = 1)
    (hdef : tDefault ≠ []) :
    extractFieldsStruct pre
      (GoField.mk name true anon tEnv tFlag tShort tDefault "true".toList tMask tUsage
        value sub :: rest) =
      .error ("required field " ++ String.mk name ++ " cannot have a default value") := by
  rw [extractFieldsStruct]
  simp only [hen, hfl]
  rw [if_neg (by simpa using henv)]
  rw [if_neg (by rcases hshort with h | h <;> simp [h])]
  rw [if_pos ⟨trivial, hdef⟩]

theorem C4_tag_conflict_witness :
    extractFieldsStruct []
      [GoField.mk ['A'] true false [] [] [] ['5'] "true".toList [] [] (Value.int 64 0) []] =
      .error ("required field " ++ String.mk ['A'] ++ " cannot have a default value") :=
  C4_tag_conflict [] ['A'] false [] [] [] ['5'] [] [] (Value.int 64 0) [] [] ['A'] ['a']
    (by decide) (by rfl) (by rfl) (Or.inl rfl) (by decide)

/-- C4 counterexample to the unamended claim: a field carrying both
required:"true" and a non-empty default is skipped outright when its env
tag is "-", so extraction succeeds instead of failing with the
tag-conflict error. -/
theorem C4_counterexample :
    extractFieldsStruct []
      [GoField.mk ['A'] true false "-".toList [] [] ['5'] "true".toList [] []
        (Value.int 64 0) []] = .ok [] := by
  rw [extractFieldsStruct, if_pos (by simp)]
  rw [extractFieldsStruct]


/-- A well-formed long flag token without an inline value classifies as a
bare flag. -/
theorem classifyArg_bare (name : Str)
    (hne : name ≠ []) (hh : name.headD ' ' ≠ '-') (hq : name.headD ' ' ≠ '=')
    (heq : charFree '=' name = true)
    (h1 : name ≠ "help".toList) (h2 : name ≠ "h".toList)
    (h3 : name ≠ "version".toList) (h4 : name ≠ "v".toList) :
    classifyArg ('-' :: '-' :: name) = .flagBare name := by
  rw [classifyArg]
  rw [if_neg (by simp only [List.length_cons, List.headD_cons, not_or]; exact ⟨by omega, by simp⟩)]
  simp only [List.headD_cons, if_true, List.drop_succ_cons, List.drop_zero]
  rw [if_neg (by push_neg; exact ⟨hne, hh, hq⟩)]
  simp only [splitFirst_noSep '=' name heq]
  rw [if_neg (by push_neg; exact ⟨h1, h2⟩)]
  rw [if_neg (by push_neg; exact ⟨h3, h4⟩)]

/-- A well-formed long flag token with an inline "=value" part classifies
as a flag with that value. -/
theorem classifyArg_withValue (name value : Str)
    (hne : name ≠ []) (hh : name.headD ' ' ≠ '-') (hq : name.headD ' ' ≠ '=')
    (heq : charFree '=' name = true)
    (h1 : name ≠ "help".toList) (h2 : name ≠ "h".toList)
    (h3 : name ≠ "version".toList) (h4 : name ≠ "v".toList) :
    classifyArg ('-' :: '-' :: (name ++ '=' :: value)) = .flagWith name value := by
  rw [classifyArg]
  rw [if_neg (by simp only [List.length_cons, List.headD_cons, not_or]; exact ⟨by omega, by simp⟩)]
  simp only [List.headD_cons, if_true, List.drop_succ_cons, List.drop_zero]
  rw [if_neg ?hbad]
  case hbad =>
    push_neg
    refine ⟨by simp, ?_, ?_⟩
    · cases name with
      | nil => exact absurd rfl hne
      | cons c t => simpa using hh
    · cases name with
      | nil => exact absurd rfl hne
      | cons c t => simpa using hq
  simp only [splitFirst_append '=' name value heq]
  rw [if_neg (by push_neg; exact ⟨h1, h2⟩)]
  rw [if_neg (by push_neg; exact ⟨h3, h4⟩)]

/-- C10 (amended): when the flag scan reaches a well-formed long flag
token that carries no "=value" part and whose successor argument is the
empty string, the unguarded args[i+1][0] index panics; the panic is not
universal over argument lists containing such a pair, because the scan can
stop before reaching it. -/
theorem C10_empty_arg_panic (name : Str) (rest : List Str)
    (m : List (Str × FlagValue))
    (hne : name ≠ []) (hh : name.headD ' ' ≠ '-') (hq : name.headD ' ' ≠ '=')
    (heq : charFree '=' name = true)
    (h1 : name ≠ "help".toList) (h2 : name ≠ "h".toList)
    (h3 : name ≠ "version".toList) (h4 : name ≠ "v".toList) :
    parseArgs (('-' :: '-' :: name) :: [] :: rest) m = .panic := by
  rw [parseArgs, classifyArg_bare name hne hh hq heq h1 h2 h3 h4]

theorem C10_empty_arg_panic_witness :
    parseArgs [('-' :: '-' :: "flag".toList), []] [] = .panic :=
  C10_empty_arg_panic "flag".toList [] [] (by decide) (by decide) (by decide)
    (by decide) (by decide) (by decide) (by decide) (by decide)

/-- C10 counterexample to the unamended claim: an argument list containing
a flag token followed by an empty string does not panic when an earlier
argument already stops the scan. -/
theorem C10_counterexample :
    newFlagParser [['a'], ('-' :: '-' :: "flag".toList), []] = .ok [] := by
  rw [newFlagParser, parseArgs]
  have hc : classifyArg ['a'] = .stop := rfl
  rw [hc]

/-- C5: for a boolean-typed descriptor without a short flag, a well-formed
long flag supplied with no explicit value resolves from the flag source to
the string "true", while the same flag supplied as --name=false resolves
to the string "false". -/
theorem C5_bool_flag (f : Field) (name : Str)
    (hty : tyOf f.value = Ty.tBool) (hflag : f.flag = name)
    (hshort : f.shortFlag = Char.ofNat 0)
    (hne : name ≠ []) (hh : name.headD ' ' ≠ '-') (hq : name.headD ' ' ≠ '=')
    (heq : charFree '=' name = true)
    (h1 : name ≠ "help".toList) (h2 : name ≠ "h".toList)
    (h3 : name ≠ "version".toList) (h4 : name ≠ "v".toList) :
    (∃ m, newFlagParser [('-' :: '-' :: name)] = .ok m ∧
      flagSourceFn m f = some "true".toList) ∧
    (∃ m, newFlagParser [('-' :: '-' :: (name ++ '=' :: "false".toList))] = .ok m ∧
      flagSourceFn m f = some "false".toList) := by
  constructor
  · refine ⟨[(name, ⟨false, []⟩)], ?_, ?_⟩
    · rw [newFlagParser, parseArgs, classifyArg_bare name hne hh hq heq h1 h2 h3 h4]
      rfl
    · rw [flagSourceFn]
      rw [if_neg (by simp [hshort])]
      rw [hflag, flagSourceLow]
      simp [lookupStr, hty]
  · refine ⟨[(name, ⟨true, "false".toList⟩)], ?_, ?_⟩
    · rw [newFlagParser, parseArgs,
        classifyArg_withValue name "false".toList hne hh hq heq h1 h2 h3 h4]
      show parseArgs [] (upsert name ⟨true, "false".toList⟩ []) =
        .ok [(name, ⟨true, "false".toList⟩)]
      rw [parseArgs, upsert]
    · rw [flagSourceFn]
      rw [if_neg (by simp [hshort])]
      rw [hflag, flagSourceLow]
      simp [lookupStr, hty]

def c5Field : Field :=
  { value := Value.bool false, name := "verbose".toList, envVar := [],
    flag := "verbose".toList, shortFlag := Char.ofNat 0, default := [],
    required := false, mask := false, usage := [] }

theorem C5_bool_flag_witness :
    (∃ m, newFlagParser [('-' :: '-' :: "verbose".toList)] = .ok m ∧
      flagSourceFn m c5Field = some "true".toList) ∧
    (∃ m, newFlagParser [('-' :: '-' :: ("verbose".toList ++ '=' :: "false".toList))] = .ok m ∧
      flagSourceFn m c5Field = some "false".toList) :=
  C5_bool_flag c5Field "verbose".toList rfl rfl rfl (by decide) (by decide) (by decide)
    (by decide) (by decide) (by decide) (by decide) (by decide)

/-- C1: with the orchestrator's source list [environment, flag], a value
resolved by the flag source overwrites whatever the environment step left
in the destination; a value resolved only by the environment survives; a
descriptor resolving in neither source keeps its (default-initialised)
destination; and a source in which the descriptor does not resolve leaves
the field untouched. -/
theorem C1_precedence (environ : List Str) (m : List (Str × FlagValue)) (f : Field) :
    (∀ f1 vF wF,
      sourceStep [] (some (envSourceFn (newEnvSource environ))) f = .ok f1 →
      flagSourceFn m f1 = some vF → processField vF f1.value = .ok wF →
      processWithSource f [some (envSourceFn (newEnvSource environ)), some (flagSourceFn m)] [] =
        .ok { f1 with value := wF }) ∧
    (∀ vE wE,
      envSourceFn (newEnvSource environ) f = some vE → processField vE f.value = .ok wE →
      flagSourceFn m { f with value := wE } = none →
      processWithSource f [some (envSourceFn (newEnvSource environ)), some (flagSourceFn m)] [] =
        .ok { f with value := wE }) ∧
    (envSourceFn (newEnvSource environ) f = none → flagSourceFn m f = none →
      processWithSource f [some (envSourceFn (newEnvSource environ)), some (flagSourceFn m)] [] =
        .ok f) ∧
    (∀ (s : Src) (ms : List (Option Mutator)) (g : Field), s g = none →
      sourceStep ms (some s) g = .ok g) := by
  have hskip : ∀ (s : Src) (ms : List (Option Mutator)) (g : Field), s g = none →
      sourceStep ms (some s) g = .ok g := by
    intro s ms g h
    rw [sourceStep, h]
  refine ⟨?_, ?_, ?_, hskip⟩
  · intro f1 vF wF h1 h2 h3
    rw [processWithSource]
    simp only [h1]
    rw [processWithSource]
    have hstep2 : sourceStep [] (some (flagSourceFn m)) f1 = .ok { f1 with value := wF } := by
      rw [sourceStep, h2]
      simp only [applyMutators, h3]
    simp only [hstep2]
    rw [processWithSource]
  · intro vE wE hE hWE hF
    rw [processWithSource]
    have hstep1 : sourceStep [] (some (envSourceFn (newEnvSource environ))) f =
        .ok { f with value := wE } := by
      rw [sourceStep, hE]
      simp only [applyMutators, hWE]
    simp only [hstep1]
    rw [processWithSource]
    simp only [hskip (flagSourceFn m) [] { f with value := wE } hF]
    rw [processWithSource]
  · intro hE hF
    rw [processWithSource]
    simp only [hskip (envSourceFn (newEnvSource environ)) [] f hE]
    rw [processWithSource]
    simp only [hskip (flagSourceFn m) [] f hF]
    rw [processWithSource]

def c1Field : Field :=
  { value := Value.str [], name := ['s'], envVar := ['E'], flag := ['p'],
    shortFlag := Char.ofNat 0, default := [], required := false, mask := false,
    usage := [] }

theorem C1_precedence_witness :
    processWithSource c1Field
      [some (envSourceFn (newEnvSource [])), some (flagSourceFn [(['p'], ⟨true, ['x']⟩)])] [] =
      .ok { c1Field with value := Value.str ['x'] } := by
  have h1 : sourceStep [] (some (envSourceFn (newEnvSource []))) c1Field = .ok c1Field := rfl
  have h2 : flagSourceFn [(['p'], ⟨true, ['x']⟩)] c1Field = some ['x'] := rfl
  have h3 : processField ['x'] c1Field.value = .ok (Value.str ['x']) := by
    simp [processField, c1Field, tyOf, coerceInto, coerceBase]
  exact (C1_precedence [] [(['p'], ⟨true, ['x']⟩)] c1Field).1 c1Field ['x']
    (Value.str ['x']) h1 h2 h3

theorem getLastD_reverse (l : List Char) (d : Char) : l.reverse.getLastD d = l.headD d := by
  rw [List.getLastD_eq_getLast?, List.getLast?_reverse, List.headD_eq_head?]

theorem splitCamelAux_shape (up : Char → Bool) :
    ∀ (s : Str) (prev : Char) (acc : Str), ∃ r ws,
      splitCamelAux up prev acc s = (acc.reverse ++ r) :: ws := by
  intro s
  induction s with
  | nil => intro prev acc; exact ⟨[], [], by rw [splitCamelAux]; simp⟩
  | cons c rest ih =>
    intro prev acc
    rw [splitCamelAux]
    by_cases hsplit : up c = true ∧ ¬ up prev = true
    · exact ⟨[], splitCamelAux up c [c] rest, by rw [if_pos hsplit]; simp⟩
    · obtain ⟨r, ws, hr⟩ := ih c (c :: acc)
      refine ⟨c :: r, ws, ?_⟩
      rw [if_neg hsplit, hr]
      simp

theorem splitCamelAux_spec (up : Char → Bool) :
    ∀ (s : Str) (prev : Char) (acc : Str), acc ≠ [] → acc.headD ' ' = prev →
      List.Chain' (fun a b => ¬(up b = false ∧ up a = true)) acc →
      (splitCamelAux up prev acc s).join = acc.reverse ++ s ∧
      (∀ w ∈ splitCamelAux up prev acc s, w ≠ []) ∧
      List.Chain' (fun a b => a ≠ [] ∧ up (a.getLastD ' ') = false ∧ up (b.headD ' ') = true)
        (splitCamelAux up prev acc s) ∧
      (∀ w ∈ splitCamelAux up prev acc s,
        List.Chain' (fun a b => ¬(up a = false ∧ up b = true)) w) := by
  intro s
  induction s with
  | nil =>
    intro prev acc hacc _ hchain
    rw [splitCamelAux]
    refine ⟨by simp, by simpa using fun h => hacc (by simpa using h), by simp, ?_⟩
    intro w hw
    have hw' : w = acc.reverse := by simpa using hw
    subst hw'
    exact List.chain'_reverse.mpr hchain
  | cons c rest ih =>
    intro prev acc hacc hhead hchain
    rw [splitCamelAux]
    by_cases hsplit : up c = true ∧ ¬ up prev = true
    · rw [if_pos hsplit]
      have hinner := ih c [c] (by simp) (by simp) (by simp)
      obtain ⟨r, ws, hshape⟩ := splitCamelAux_shape up rest c [c]
      obtain ⟨hj, hwne, hch, hwchain⟩ := hinner
      refine ⟨by simpa using hj, ?_, ?_, ?_⟩
      · intro w hw
        rcases List.mem_cons.mp hw with hw | hw
        · subst hw; simpa using hacc
        · exact hwne w hw
      · rw [List.chain'_cons']
        refine ⟨?_, hch⟩
        intro b hb
        rw [hshape] at hb
        simp only [List.head?_cons, Option.mem_some_iff] at hb
        subst hb
        refine ⟨by simpa using hacc, ?_, by simp [hsplit.1]⟩
        rw [getLastD_reverse, hhead]
        simpa using hsplit.2
      · intro w hw
        rcases List.mem_cons.mp hw with hw | hw
        · subst hw
          exact List.chain'_reverse.mpr hchain
        · exact hwchain w hw
    · rw [if_neg hsplit]
      have hchain' : List.Chain' (fun a b => ¬(up b = false ∧ up a = true)) (c :: acc) := by
        rw [List.chain'_cons']
        refine ⟨?_, hchain⟩
        intro b hb
        have hb' : b = prev := by
          cases acc with
          | nil => exact absurd rfl hacc
          | cons a t =>
            simp only [List.head?_cons, Option.mem_some_iff] at hb
            simpa [hb] using hhead
        subst hb'
        intro hcon
        exact hsplit ⟨hcon.2, by simp [hcon.1]⟩
      have hinner := ih c (c :: acc) (by simp) (by simp) hchain'
      obtain ⟨hj, hwne, hch, hwchain⟩ := hinner
      refine ⟨?_, hwne, hch, hwchain⟩
      rw [hj]
      simp

/-- C6: splitCamelCase preserves the identifier's characters, produces
non-empty words, starts a new word exactly where an uppercase rune follows
a non-uppercase rune (so acronym runs of consecutive uppercase letters are
never split), and no word contains an internal non-upper-to-upper
transition; in particular "MyVar" splits into ["My","Var"] and "APIKey"
stays whole. -/
theorem C6_splitCamelCase (up : Char → Bool) (s : Str) :
    (splitCamelCase up s).join = s ∧
    (∀ w ∈ splitCamelCase up s, w ≠ []) ∧
    List.Chain' (fun a b => a ≠ [] ∧ up (a.getLastD ' ') = false ∧ up (b.headD ' ') = true)
      (splitCamelCase up s) ∧
    (∀ w ∈ splitCamelCase up s,
      List.Chain' (fun a b => ¬(up a = false ∧ up b = true)) w) ∧
    splitCamelCase Char.isUpper "MyVar".toList = ["My".toList, "Var".toList] ∧
    splitCamelCase Char.isUpper "APIKey".toList = ["APIKey".toList] := by
  have hex1 : splitCamelCase Char.isUpper "MyVar".toList = ["My".toList, "Var".toList] := by
    rfl
  have hex2 : splitCamelCase Char.isUpper "APIKey".toList = ["APIKey".toList] := by
    rfl
  cases s with
  | nil => exact ⟨rfl, by simp [splitCamelCase], by simp [splitCamelCase],
      by simp [splitCamelCase], hex1, hex2⟩
  | cons c rest =>
    have h := splitCamelAux_spec up rest c [c] (by simp) (by simp) (by simp)
    obtain ⟨hj, hwne, hch, hwchain⟩ := h
    exact ⟨by rw [splitCamelCase, hj]; rfl, by rw [splitCamelCase]; exact hwne,
      by rw [splitCamelCase]; exact hch, by rw [splitCamelCase]; exact hwchain, hex1, hex2⟩
